import Mathlib

/-!
Verification of the explain-plan structuring engine of the `opensearchsql`
command-line client (file `opensearchsql_cli/query/explain_results.py`).

The Python source is shallowly embedded: every function of the source file is
translated to an executable Lean definition over `List Char` / `String`, with
Python's arbitrary-precision integers as `Int`, Python dictionaries as ordered
association lists, and exceptions as `Except`.  The Python standard-library
routines the source calls (`str.strip`, `str.split`, `re.match` for the two
concrete patterns appearing in the source, and the `json` module restricted to
the fragment the plan texts use: objects, arrays, strings, integers, booleans
and null, ASCII input) are modelled alongside.

Specification-side definitions (suffix `_spec`, and the scanner-state
vocabulary `scanStep`/`splitsAt`/`stateAt`) are written from the wording of
the specification document and compared with the embedded source functions.
-/

set_option autoImplicit false

/-- Dynamic values produced by the parser: strings, integers, booleans,
`None`, lists, and insertion-ordered dicts. -/
inductive PyVal where
  | vstr : String → PyVal
  | vint : Int → PyVal
  | vbool : Bool → PyVal
  | vnull : PyVal
  | vlist : List PyVal → PyVal
  | vdict : List (String × PyVal) → PyVal
deriving Inhabited

mutual

/-- Decidable equality for `PyVal`. -/
def PyVal.decEq : (a b : PyVal) → Decidable (a = b)
  | .vstr a, .vstr b =>
    if h : a = b then .isTrue (by rw [h]) else .isFalse (fun he => h (PyVal.vstr.inj he))
  | .vint a, .vint b =>
    if h : a = b then .isTrue (by rw [h]) else .isFalse (fun he => h (PyVal.vint.inj he))
  | .vbool a, .vbool b =>
    if h : a = b then .isTrue (by rw [h]) else .isFalse (fun he => h (PyVal.vbool.inj he))
  | .vnull, .vnull => .isTrue rfl
  | .vlist a, .vlist b =>
    match PyVal.decEqL a b with
    | .isTrue h => .isTrue (by rw [h])
    | .isFalse h => .isFalse (fun he => h (PyVal.vlist.inj he))
  | .vdict a, .vdict b =>
    match PyVal.decEqD a b with
    | .isTrue h => .isTrue (by rw [h])
    | .isFalse h => .isFalse (fun he => h (PyVal.vdict.inj he))
  | .vstr _, .vint _ => .isFalse nofun
  | .vstr _, .vbool _ => .isFalse nofun
  | .vstr _, .vnull => .isFalse nofun
  | .vstr _, .vlist _ => .isFalse nofun
  | .vstr _, .vdict _ => .isFalse nofun
  | .vint _, .vstr _ => .isFalse nofun
  | .vint _, .vbool _ => .isFalse nofun
  | .vint _, .vnull => .isFalse nofun
  | .vint _, .vlist _ => .isFalse nofun
  | .vint _, .vdict _ => .isFalse nofun
  | .vbool _, .vstr _ => .isFalse nofun
  | .vbool _, .vint _ => .isFalse nofun
  | .vbool _, .vnull => .isFalse nofun
  | .vbool _, .vlist _ => .isFalse nofun
  | .vbool _, .vdict _ => .isFalse nofun
  | .vnull, .vstr _ => .isFalse nofun
  | .vnull, .vint _ => .isFalse nofun
  | .vnull, .vbool _ => .isFalse nofun
  | .vnull, .vlist _ => .isFalse nofun
  | .vnull, .vdict _ => .isFalse nofun
  | .vlist _, .vstr _ => .isFalse nofun
  | .vlist _, .vint _ => .isFalse nofun
  | .vlist _, .vbool _ => .isFalse nofun
  | .vlist _, .vnull => .isFalse nofun
  | .vlist _, .vdict _ => .isFalse nofun
  | .vdict _, .vstr _ => .isFalse nofun
  | .vdict _, .vint _ => .isFalse nofun
  | .vdict _, .vbool _ => .isFalse nofun
  | .vdict _, .vnull => .isFalse nofun
  | .vdict _, .vlist _ => .isFalse nofun

/-- Decidable equality for lists of `PyVal`. -/
def PyVal.decEqL : (a b : List PyVal) → Decidable (a = b)
  | [], [] => .isTrue rfl
  | [], _ :: _ => .isFalse nofun
  | _ :: _, [] => .isFalse nofun
  | x :: xs, y :: ys =>
    match PyVal.decEq x y with
    | .isFalse h => .isFalse (fun he => h (List.head_eq_of_cons_eq he))
    | .isTrue h1 =>
      match PyVal.decEqL xs ys with
      | .isTrue h2 => .isTrue (by rw [h1, h2])
      | .isFalse h => .isFalse (fun he => h (List.tail_eq_of_cons_eq he))

/-- Decidable equality for `PyVal` dict entry lists. -/
def PyVal.decEqD : (a b : List (String × PyVal)) → Decidable (a = b)
  | [], [] => .isTrue rfl
  | [], _ :: _ => .isFalse nofun
  | _ :: _, [] => .isFalse nofun
  | (k, x) :: xs, (k2, y) :: ys =>
    if hk : k = k2 then
      match PyVal.decEq x y with
      | .isFalse h =>
        .isFalse (fun he => h (congrArg Prod.snd (List.head_eq_of_cons_eq he)))
      | .isTrue h1 =>
        match PyVal.decEqD xs ys with
        | .isTrue h2 => .isTrue (by rw [hk, h1, h2])
        | .isFalse h => .isFalse (fun he => h (List.tail_eq_of_cons_eq he))
    else
      .isFalse (fun he => hk (congrArg Prod.fst (List.head_eq_of_cons_eq he)))

end

instance : DecidableEq PyVal := PyVal.decEq

/-- The Python exceptions the embedded code can raise. -/
inductive PyErr where
  | jsonError : String → PyErr
  | keyError : String → PyErr
  | typeError : PyErr
  | indexError : PyErr
  | valueError : PyErr
deriving DecidableEq, Inhabited, Repr

/-- Whitespace for Python `str.strip()` (ASCII fragment). -/
def isPySpace (c : Char) : Bool :=
  c = ' ' ∨ c = '\t' ∨ c = '\n' ∨ c = '\x0d' ∨ c = '\x0b' ∨ c = '\x0c'

/-- Python `str.strip(chars)`: drop characters satisfying `p` from both ends. -/
def stripOn (p : Char → Bool) (l : List Char) : List Char :=
  ((l.dropWhile p).reverse.dropWhile p).reverse

/-- Python `str.strip()` on a character list. -/
def stripChars (l : List Char) : List Char :=
  stripOn isPySpace l

/-- Python `str.strip()` on a string. -/
def pyStrip (s : String) : String :=
  String.mk (stripChars s.data)

/-- Python `str.split(sep)` for a one-character separator: split at every
occurrence, keeping empty pieces. -/
def splitChar (sep : Char) : List Char → List (List Char)
  | [] => [[]]
  | c :: rest =>
    let r := splitChar sep rest
    if c = sep then [] :: r
    else (c :: r.headD []) :: r.tail

/-- Python dict assignment `d[k] = v`: update in place if the key exists
(keeping its position), otherwise append. -/
def insertAssign (d : List (String × PyVal)) (k : String) (v : PyVal) :
    List (String × PyVal) :=
  if d.any (fun e => e.1 = k) then
    d.map (fun e => if e.1 = k then (k, v) else e)
  else d ++ [(k, v)]

/-- Python dict lookup `d[k]` (as an option). -/
def lookupA (d : List (String × PyVal)) (k : String) : Option PyVal :=
  match d.find? (fun e => e.1 = k) with
  | some e => some e.2
  | none => none

/-- Python `\w` for the ASCII fragment: letters, digits, underscore. -/
def isWordChar (c : Char) : Bool :=
  c.isAlphanum ∨ c = '_'

/-- Python `"->" in s`. -/
def containsArrow : List Char → Bool
  | '-' :: '>' :: _ => true
  | _ :: rest => containsArrow rest
  | [] => false

/-- Python `s.find("->")` starting the count at `i`. -/
def arrowPosAux : List Char → Nat → Int
  | '-' :: '>' :: _, i => Int.ofNat i
  | _ :: rest, i => arrowPosAux rest (i + 1)
  | [], _ => -1

/-! ## The depth/quote scanner, specification side

Vocabulary written from the specification's wording for the Depth-Aware
Splitter: three depth counters for `[]`, `()`, `{}`, and a quoted-literal
state opened by `'` or `"` and closed by the same character. -/

/-- The scanner state of the Depth-Aware Splitter. -/
structure ScanState where
  bracketDepth : Int := 0
  parenDepth : Int := 0
  braceDepth : Int := 0
  inQuotes : Bool := false
  quoteChar : Option Char := none
deriving DecidableEq, Inhabited, Repr

/-- One scanner transition, from the specification's wording: a quote opened
by `'` or `"` is closed only by the same character (no escape processing);
outside quotes the three depth counters follow the six delimiters; every
other character leaves the state unchanged. -/
def scanStep (st : ScanState) (c : Char) : ScanState :=
  if st.inQuotes then
    if st.quoteChar = some c then { st with inQuotes := false, quoteChar := none }
    else st
  else if c = '\x22' ∨ c = '\x27' then { st with inQuotes := true, quoteChar := some c }
  else if c = '[' then { st with bracketDepth := st.bracketDepth + 1 }
  else if c = ']' then { st with bracketDepth := st.bracketDepth - 1 }
  else if c = '(' then { st with parenDepth := st.parenDepth + 1 }
  else if c = ')' then { st with parenDepth := st.parenDepth - 1 }
  else if c = '\x7b' then { st with braceDepth := st.braceDepth + 1 }
  else if c = '\x7d' then { st with braceDepth := st.braceDepth - 1 }
  else st

/-- All three depth counters are zero and the scanner is outside quotes. -/
def atTopLevelB (st : ScanState) : Bool :=
  st.bracketDepth = 0 ∧ st.parenDepth = 0 ∧ st.braceDepth = 0 ∧ st.inQuotes = false

/-- The eight characters that play a structural role for the scanner and are
therefore consumed by it rather than treated as potential separators. -/
def isStructuralChar (c : Char) : Bool :=
  c = '\x22' ∨ c = '\x27' ∨ c = '[' ∨ c = ']' ∨ c = '(' ∨ c = ')' ∨
    c = '\x7b' ∨ c = '\x7d'

/-- Specification wording: a split happens exactly at an occurrence of the
separator that lies at zero bracket, parenthesis and brace depth and outside
a quoted literal (a structural character is consumed by the scanner instead). -/
def splitsAt (sep : Char) (st : ScanState) (c : Char) : Bool :=
  c = sep ∧ atTopLevelB st ∧ ¬ isStructuralChar c

/-- Scanner state reached just before position `i`. -/
def stateAt (l : List Char) (i : Nat) : ScanState :=
  (l.take i).foldl scanStep {}

/-- The split points of the Depth-Aware Splitter on `content`/`sep`. -/
def splitIndices (content : String) (sep : Char) : List Nat :=
  (List.range content.data.length).filter
    (fun i => splitsAt sep (stateAt content.data i) (content.data.getD i ' '))

/-- The raw (untrimmed) segments between split points, from the
specification's wording: scan left to right, cut at every split point. -/
def specSegs (sep : Char) (st : ScanState) : List Char → List (List Char)
  | [] => [[]]
  | c :: rest =>
    let r := specSegs sep (scanStep st c) rest
    if splitsAt sep st c then [] :: r
    else (c :: r.headD []) :: r.tail

/-- Trim each segment and drop the ones that trim to nothing. -/
def trimNonEmpty (segs : List (List Char)) : List String :=
  segs.filterMap
    (fun s => if stripChars s = [] then none else some (String.mk (stripChars s)))

/-- The Depth-Aware Splitter, stated from the specification: the ordered
sequence of trimmed, non-empty substrings obtained by cutting at every
split point. -/
def depth_aware_split_spec (content : String) (sep : Char) : List String :=
  trimNonEmpty (specSegs sep {} content.data)

/-- Rejoin segments with the separator. -/
def joinSep (sep : Char) : List (List Char) → List Char
  | [] => []
  | [s] => s
  | s :: rest => s ++ sep :: joinSep sep rest

/-! ## The depth/quote scanner, source side

`parse_respecting_nesting` from `explain_results.py`, transcribed branch by
branch; the five Python locals `bracket_depth`, `paren_depth`, `brace_depth`,
`in_quotes`, `quote_char` are grouped in a `ScanState`. -/

/-- The `split_mode=True` loop of `parse_respecting_nesting`. -/
def parse_split_aux (target : Char) :
    List Char → ScanState → List Char → List String → List String
  | [], _, cur, acc =>
    if stripChars cur = [] then acc else acc ++ [String.mk (stripChars cur)]
  | c :: rest, st, cur, acc =>
    if (c = '\x22' ∨ c = '\x27') ∧ st.inQuotes = false then
      parse_split_aux target rest
        { st with inQuotes := true, quoteChar := some c } (cur ++ [c]) acc
    else if st.quoteChar = some c ∧ st.inQuotes = true then
      parse_split_aux target rest
        { st with inQuotes := false, quoteChar := none } (cur ++ [c]) acc
    else if st.inQuotes = false then
      if c = '[' then
        parse_split_aux target rest
          { st with bracketDepth := st.bracketDepth + 1 } (cur ++ [c]) acc
      else if c = ']' then
        parse_split_aux target rest
          { st with bracketDepth := st.bracketDepth - 1 } (cur ++ [c]) acc
      else if c = '(' then
        parse_split_aux target rest
          { st with parenDepth := st.parenDepth + 1 } (cur ++ [c]) acc
      else if c = ')' then
        parse_split_aux target rest
          { st with parenDepth := st.parenDepth - 1 } (cur ++ [c]) acc
      else if c = '\x7b' then
        parse_split_aux target rest
          { st with braceDepth := st.braceDepth + 1 } (cur ++ [c]) acc
      else if c = '\x7d' then
        parse_split_aux target rest
          { st with braceDepth := st.braceDepth - 1 } (cur ++ [c]) acc
      else if c = target ∧ st.bracketDepth = 0 ∧ st.parenDepth = 0 ∧
          st.braceDepth = 0 then
        parse_split_aux target rest st []
          (if stripChars cur = [] then acc else acc ++ [String.mk (stripChars cur)])
      else
        parse_split_aux target rest st (cur ++ [c]) acc
    else
      parse_split_aux target rest st (cur ++ [c]) acc

/-- The `split_mode=False` loop of `parse_respecting_nesting`. -/
def parse_find_aux (target : Char) : List Char → ScanState → Nat → Int
  | [], _, _ => -1
  | c :: rest, st, i =>
    if (c = '\x22' ∨ c = '\x27') ∧ st.inQuotes = false then
      parse_find_aux target rest
        { st with inQuotes := true, quoteChar := some c } (i + 1)
    else if st.quoteChar = some c ∧ st.inQuotes = true then
      parse_find_aux target rest
        { st with inQuotes := false, quoteChar := none } (i + 1)
    else if st.inQuotes = false then
      if c = '[' then
        parse_find_aux target rest
          { st with bracketDepth := st.bracketDepth + 1 } (i + 1)
      else if c = ']' then
        parse_find_aux target rest
          { st with bracketDepth := st.bracketDepth - 1 } (i + 1)
      else if c = '(' then
        parse_find_aux target rest
          { st with parenDepth := st.parenDepth + 1 } (i + 1)
      else if c = ')' then
        parse_find_aux target rest
          { st with parenDepth := st.parenDepth - 1 } (i + 1)
      else if c = '\x7b' then
        parse_find_aux target rest
          { st with braceDepth := st.braceDepth + 1 } (i + 1)
      else if c = '\x7d' then
        parse_find_aux target rest
          { st with braceDepth := st.braceDepth - 1 } (i + 1)
      else if c = target ∧ st.bracketDepth = 0 ∧ st.parenDepth = 0 ∧
          st.braceDepth = 0 then
        Int.ofNat i
      else
        parse_find_aux target rest st (i + 1)
    else
      parse_find_aux target rest st (i + 1)

/-- `split_respecting_nesting` (`parse_respecting_nesting` in split mode). -/
def split_respecting_nesting (content : String) (sep : Char) : List String :=
  if stripChars content.data = [] then []
  else parse_split_aux sep content.data {} [] []

/-- `find_first_unescaped_char` (`parse_respecting_nesting` in find mode). -/
def find_first_unescaped_char (content : String) (target : Char) : Int :=
  if stripChars content.data = [] then -1
  else parse_find_aux target content.data {} 0

/-! ## Equivalence of the source splitter with the specification splitter -/

/-- Prepend accumulated characters to the first segment. -/
def consHead (cur : List Char) : List (List Char) → List (List Char)
  | [] => [cur]
  | s :: ss => (cur ++ s) :: ss

theorem specSegs_ne_nil (sep : Char) (st : ScanState) (l : List Char) :
    specSegs sep st l ≠ [] := by
  cases l with
  | nil => simp [specSegs]
  | cons c rest =>
    simp only [specSegs]
    split <;> simp

theorem consHead_nil_left {r : List (List Char)} (h : r ≠ []) : consHead [] r = r := by
  cases r with
  | nil => exact absurd rfl h
  | cons s ss => simp [consHead]

theorem scanStep_quote_open {st : ScanState} {c : Char}
    (hq : c = '\x22' ∨ c = '\x27') (hin : st.inQuotes = false) :
    scanStep st c = { st with inQuotes := true, quoteChar := some c } := by
  rw [scanStep, if_neg (by simp [hin]), if_pos hq]

theorem scanStep_quote_close {st : ScanState} {c : Char}
    (hq : st.quoteChar = some c) (hin : st.inQuotes = true) :
    scanStep st c = { st with inQuotes := false, quoteChar := none } := by
  rw [scanStep, if_pos hin, if_pos hq]

theorem scanStep_in_quotes {st : ScanState} {c : Char}
    (hq : ¬ st.quoteChar = some c) (hin : st.inQuotes = true) :
    scanStep st c = st := by
  rw [scanStep, if_pos hin, if_neg hq]

theorem splitsAt_false_struct {sep : Char} {st : ScanState} {c : Char}
    (h : isStructuralChar c = true) : splitsAt sep st c = false := by
  simp [splitsAt, h]

theorem splitsAt_false_quotes {sep : Char} {st : ScanState} {c : Char}
    (h : st.inQuotes = true) : splitsAt sep st c = false := by
  simp [splitsAt, atTopLevelB, h]

theorem parse_split_aux_eq (target : Char) (l : List Char) :
    ∀ (st : ScanState) (cur : List Char) (acc : List String),
      parse_split_aux target l st cur acc =
        acc ++ trimNonEmpty (consHead cur (specSegs target st l)) := by
  induction l with
  | nil =>
    intro st cur acc
    simp only [parse_split_aux, specSegs, consHead, List.append_nil, trimNonEmpty,
      List.filterMap_cons, List.filterMap_nil]
    by_cases h : stripChars cur = []
    · simp [h]
    · simp [h]
  | cons c rest ih =>
    intro st cur acc
    have hne := specSegs_ne_nil target (scanStep st c) rest
    by_cases h1 : (c = '\x22' ∨ c = '\x27') ∧ st.inQuotes = false
    · -- a quote opens
      rw [parse_split_aux, if_pos h1, ih]
      have hstruct : isStructuralChar c = true := by
        rcases h1.1 with h | h <;> simp [isStructuralChar, h]
      rw [specSegs, splitsAt_false_struct hstruct, if_neg (by simp),
        scanStep_quote_open h1.1 h1.2]
      cases hr : specSegs target ({ st with inQuotes := true, quoteChar := some c }) rest with
      | nil => exact absurd hr (specSegs_ne_nil _ _ _)
      | cons s ss => simp [consHead]
    · rw [parse_split_aux, if_neg h1]
      by_cases h2 : st.quoteChar = some c ∧ st.inQuotes = true
      · -- the open quote closes
        rw [if_pos h2, ih]
        rw [specSegs, splitsAt_false_quotes h2.2, if_neg (by simp),
          scanStep_quote_close h2.1 h2.2]
        cases hr : specSegs target ({ st with inQuotes := false, quoteChar := none }) rest with
        | nil => exact absurd hr (specSegs_ne_nil _ _ _)
        | cons s ss => simp [consHead]
      · rw [if_neg h2]
        by_cases h3 : st.inQuotes = false
        · rw [if_pos h3]
          have hnq : ¬ (c = '\x22' ∨ c = '\x27') := fun hq => h1 ⟨hq, h3⟩
          by_cases hb1 : c = '['
          · rw [if_pos hb1, ih]
            rw [specSegs, splitsAt_false_struct (by simp [isStructuralChar, hb1]),
              if_neg (by simp)]
            have : scanStep st c = { st with bracketDepth := st.bracketDepth + 1 } := by
              rw [scanStep, if_neg (by simp [h3]), if_neg hnq, if_pos hb1]
            rw [this]
            cases hr : specSegs target ({ st with bracketDepth := st.bracketDepth + 1 }) rest with
            | nil => exact absurd hr (specSegs_ne_nil _ _ _)
            | cons s ss => simp [consHead]
          · rw [if_neg hb1]
            by_cases hb2 : c = ']'
            · rw [if_pos hb2, ih]
              rw [specSegs, splitsAt_false_struct (by simp [isStructuralChar, hb2]),
                if_neg (by simp)]
              have : scanStep st c = { st with bracketDepth := st.bracketDepth - 1 } := by
                rw [scanStep, if_neg (by simp [h3]), if_neg hnq, if_neg hb1, if_pos hb2]
              rw [this]
              cases hr : specSegs target ({ st with bracketDepth := st.bracketDepth - 1 }) rest with
              | nil => exact absurd hr (specSegs_ne_nil _ _ _)
              | cons s ss => simp [consHead]
            · rw [if_neg hb2]
              by_cases hb3 : c = '('
              · rw [if_pos hb3, ih]
                rw [specSegs, splitsAt_false_struct (by simp [isStructuralChar, hb3]),
                  if_neg (by simp)]
                have : scanStep st c = { st with parenDepth := st.parenDepth + 1 } := by
                  rw [scanStep, if_neg (by simp [h3]), if_neg hnq, if_neg hb1, if_neg hb2,
                    if_pos hb3]
                rw [this]
                cases hr : specSegs target ({ st with parenDepth := st.parenDepth + 1 }) rest with
                | nil => exact absurd hr (specSegs_ne_nil _ _ _)
                | cons s ss => simp [consHead]
              · rw [if_neg hb3]
                by_cases hb4 : c = ')'
                · rw [if_pos hb4, ih]
                  rw [specSegs, splitsAt_false_struct (by simp [isStructuralChar, hb4]),
                    if_neg (by simp)]
                  have : scanStep st c = { st with parenDepth := st.parenDepth - 1 } := by
                    rw [scanStep, if_neg (by simp [h3]), if_neg hnq, if_neg hb1, if_neg hb2,
                      if_neg hb3, if_pos hb4]
                  rw [this]
                  cases hr : specSegs target ({ st with parenDepth := st.parenDepth - 1 }) rest with
                  | nil => exact absurd hr (specSegs_ne_nil _ _ _)
                  | cons s ss => simp [consHead]
                · rw [if_neg hb4]
                  by_cases hb5 : c = '\x7b'
                  · rw [if_pos hb5, ih]
                    rw [specSegs, splitsAt_false_struct (by simp [isStructuralChar, hb5]),
                      if_neg (by simp)]
                    have : scanStep st c = { st with braceDepth := st.braceDepth + 1 } := by
                      rw [scanStep, if_neg (by simp [h3]), if_neg hnq, if_neg hb1, if_neg hb2,
                        if_neg hb3, if_neg hb4, if_pos hb5]
                    rw [this]
                    cases hr : specSegs target ({ st with braceDepth := st.braceDepth + 1 }) rest with
                    | nil => exact absurd hr (specSegs_ne_nil _ _ _)
                    | cons s ss => simp [consHead]
                  · rw [if_neg hb5]
                    by_cases hb6 : c = '\x7d'
                    · rw [if_pos hb6, ih]
                      rw [specSegs, splitsAt_false_struct (by simp [isStructuralChar, hb6]),
                        if_neg (by simp)]
                      have : scanStep st c = { st with braceDepth := st.braceDepth - 1 } := by
                        rw [scanStep, if_neg (by simp [h3]), if_neg hnq, if_neg hb1, if_neg hb2,
                          if_neg hb3, if_neg hb4, if_neg hb5, if_pos hb6]
                      rw [this]
                      cases hr : specSegs target ({ st with braceDepth := st.braceDepth - 1 }) rest with
                      | nil => exact absurd hr (specSegs_ne_nil _ _ _)
                      | cons s ss => simp [consHead]
                    · rw [if_neg hb6]
                      have hstep : scanStep st c = st := by
                        rw [scanStep, if_neg (by simp [h3]), if_neg hnq, if_neg hb1, if_neg hb2,
                          if_neg hb3, if_neg hb4, if_neg hb5, if_neg hb6]
                      by_cases hsep : c = target ∧ st.bracketDepth = 0 ∧ st.parenDepth = 0 ∧
                          st.braceDepth = 0
                      · -- a split point
                        rw [if_pos hsep, ih]
                        have hstructf : isStructuralChar c = false := by
                          simp only [isStructuralChar, decide_eq_false_iff_not]
                          rintro (h | h | h | h | h | h | h | h)
                          · exact hnq (Or.inl h)
                          · exact hnq (Or.inr h)
                          · exact hb1 h
                          · exact hb2 h
                          · exact hb3 h
                          · exact hb4 h
                          · exact hb5 h
                          · exact hb6 h
                        have hsplit : splitsAt target st c = true := by
                          obtain ⟨hct, hd1, hd2, hd3⟩ := hsep
                          subst hct
                          simp [splitsAt, atTopLevelB, hd1, hd2, hd3, h3, hstructf]
                        rw [consHead_nil_left (specSegs_ne_nil target st rest)]
                        simp only [specSegs, hstep, hsplit, if_true]
                        have hch : consHead cur ([] :: specSegs target st rest) =
                            cur :: specSegs target st rest := by simp [consHead]
                        rw [hch]
                        by_cases hcur : stripChars cur = []
                        · simp [trimNonEmpty, List.filterMap_cons, hcur]
                        · simp [trimNonEmpty, List.filterMap_cons, hcur]
                      · -- separator conditions not met: plain character
                        rw [if_neg hsep, ih]
                        have hsplit : splitsAt target st c = false := by
                          simp only [splitsAt, atTopLevelB, decide_eq_false_iff_not]
                          intro ⟨hc, hd, _⟩
                          have hd' := of_decide_eq_true hd
                          exact hsep ⟨hc, hd'.1, hd'.2.1, hd'.2.2.1⟩
                        rw [specSegs, hstep, hsplit]
                        simp only [Bool.false_eq_true, if_false]
                        cases hr : specSegs target st rest with
                        | nil => exact absurd hr (specSegs_ne_nil _ _ _)
                        | cons s ss => simp [consHead]
        · -- still inside quotes, not the closing character
          rw [if_neg h3]
          have hin : st.inQuotes = true := by
            cases hq : st.inQuotes
            · exact absurd hq h3
            · rfl
          have hnc : ¬ st.quoteChar = some c := fun hq => h2 ⟨hq, hin⟩
          rw [ih, specSegs, splitsAt_false_quotes hin, scanStep_in_quotes hnc hin,
            if_neg (by simp)]
          cases hr : specSegs target st rest with
          | nil => exact absurd hr (specSegs_ne_nil _ _ _)
          | cons s ss => simp [consHead]

theorem stripOn_eq_nil_iff {p : Char → Bool} {l : List Char} :
    stripOn p l = [] ↔ ∀ c ∈ l, p c := by
  unfold stripOn
  rw [List.reverse_eq_nil_iff, List.dropWhile_eq_nil_iff]
  constructor
  · intro h c hc
    by_cases hcl : c ∈ l.dropWhile p
    · exact h c (List.mem_reverse.2 hcl)
    · have hsplit := List.takeWhile_append_dropWhile (p := p) (l := l)
      rw [← hsplit] at hc
      rcases List.mem_append.1 hc with h1 | h1
      · exact List.mem_takeWhile_imp h1
      · exact absurd h1 hcl
  · intro h c hc
    exact h c ((List.dropWhile_sublist p).subset (List.mem_reverse.1 hc))

theorem mem_specSegs_subset (sep : Char) :
    ∀ (l : List Char) (st : ScanState) (s : List Char),
      s ∈ specSegs sep st l → ∀ c ∈ s, c ∈ l := by
  intro l
  induction l with
  | nil =>
    intro st s hs c hc
    simp only [specSegs, List.mem_singleton] at hs
    subst hs
    simp at hc
  | cons a rest ih =>
    intro st s hs c hc
    simp only [specSegs] at hs
    cases hr : specSegs sep (scanStep st a) rest with
    | nil => exact absurd hr (specSegs_ne_nil _ _ _)
    | cons s0 ss =>
      rw [hr] at hs
      simp only [List.headD_cons, List.tail_cons] at hs
      split at hs
      · rcases List.mem_cons.1 hs with h | h
        · subst h; simp at hc
        · exact List.mem_cons_of_mem _ (ih _ s (by rw [hr]; exact h) c hc)
      · rcases List.mem_cons.1 hs with h | h
        · subst h
          rcases List.mem_cons.1 hc with h2 | h2
          · subst h2; exact List.mem_cons_self _ _
          · exact List.mem_cons_of_mem _
              (ih _ s0 (by rw [hr]; exact List.mem_cons_self _ _) c h2)
        · exact List.mem_cons_of_mem _
            (ih _ s (by rw [hr]; exact List.mem_cons_of_mem _ h) c hc)

/-- The source splitter equals the specification splitter (shared helper). -/
theorem split_respecting_nesting_eq_spec (content : String) (sep : Char) :
    split_respecting_nesting content sep = depth_aware_split_spec content sep := by
  unfold split_respecting_nesting depth_aware_split_spec
  by_cases h : stripChars content.data = []
  · rw [if_pos h]
    have hall : ∀ c ∈ content.data, isPySpace c := stripOn_eq_nil_iff.1 h
    symm
    simp only [trimNonEmpty]
    rw [List.filterMap_eq_nil_iff]
    intro s hs
    have hnil : stripChars s = [] :=
      stripOn_eq_nil_iff.2
        (fun c hc => hall c (mem_specSegs_subset sep content.data {} s hs c hc))
    simp [hnil]
  · rw [if_neg h, parse_split_aux_eq, consHead_nil_left (specSegs_ne_nil _ _ _),
      List.nil_append]

/-! ## Split points, matched pairs, rejoining -/

theorem stateAt_succ (l : List Char) (i : Nat) :
    stateAt l (i + 1) =
      match l[i]? with
      | some c => scanStep (stateAt l i) c
      | none => stateAt l i := by
  unfold stateAt
  rw [List.take_succ, List.foldl_append]
  cases h : l[i]? <;> simp

theorem mem_splitIndices {content : String} {sep : Char} {i : Nat} :
    i ∈ splitIndices content sep ↔
      i < content.data.length ∧
        splitsAt sep (stateAt content.data i) (content.data.getD i ' ') = true := by
  simp [splitIndices, List.mem_filter, List.mem_range]

theorem inQuotes_false_of_top {st : ScanState} (h : atTopLevelB st = true) :
    st.inQuotes = false :=
  (of_decide_eq_true h).2.2.2

/-- The three delimiter kinds tracked by the scanner. -/
inductive BKind where
  | brk : BKind
  | par : BKind
  | brc : BKind
deriving DecidableEq

/-- Opening character of a delimiter kind. -/
def openerOf : BKind → Char
  | .brk => '['
  | .par => '('
  | .brc => '\x7b'

/-- Closing character of a delimiter kind. -/
def closerOf : BKind → Char
  | .brk => ']'
  | .par => ')'
  | .brc => '\x7d'

/-- Depth counter of a delimiter kind. -/
def depthOf : BKind → ScanState → Int
  | .brk => ScanState.bracketDepth
  | .par => ScanState.parenDepth
  | .brc => ScanState.braceDepth

theorem depthOf_eq_zero_of_top {kd : BKind} {st : ScanState}
    (h : atTopLevelB st = true) : depthOf kd st = 0 := by
  have h' := of_decide_eq_true h
  cases kd <;> simp [depthOf, h'.1, h'.2.1, h'.2.2.1]

/-- Positions `j < k` hold a matched (balanced) delimiter pair of kind `kd`:
the opener at `j` and the first later position where its depth counter
returns to the value it had before `j`, both outside quotes. -/
def matchedPair (l : List Char) (kd : BKind) (j k : Nat) : Prop :=
  j < k ∧ k < l.length ∧
    l.getD j ' ' = openerOf kd ∧ l.getD k ' ' = closerOf kd ∧
    (stateAt l j).inQuotes = false ∧
    (∀ m ∈ List.range' (j + 1) (k - j), depthOf kd (stateAt l j) < depthOf kd (stateAt l m)) ∧
    depthOf kd (stateAt l (k + 1)) = depthOf kd (stateAt l j)

/-- Positions `j < k` hold a matched quote pair: an opening quote at `j` and
the next occurrence of the same character at `k`, with the scanner inside
the quoted literal strictly between them. -/
def matchedQuote (l : List Char) (j k : Nat) : Prop :=
  j < k ∧ k < l.length ∧
    (l.getD j ' ' = '\x22' ∨ l.getD j ' ' = '\x27') ∧ l.getD k ' ' = l.getD j ' ' ∧
    (stateAt l j).inQuotes = false ∧
    (∀ m ∈ List.range' (j + 1) (k - j), (stateAt l m).inQuotes = true) ∧
    (stateAt l (k + 1)).inQuotes = false

instance (l : List Char) (kd : BKind) (j k : Nat) : Decidable (matchedPair l kd j k) := by
  unfold matchedPair
  infer_instance

instance (l : List Char) (j k : Nat) : Decidable (matchedQuote l j k) := by
  unfold matchedQuote
  infer_instance

theorem joinSep_cons_head (sep c : Char) (s0 : List Char) (ss : List (List Char)) :
    joinSep sep ((c :: s0) :: ss) = c :: joinSep sep (s0 :: ss) := by
  cases ss <;> simp [joinSep]

theorem joinSep_specSegs (sep : Char) :
    ∀ (l : List Char) (st : ScanState), joinSep sep (specSegs sep st l) = l := by
  intro l
  induction l with
  | nil => intro st; simp [specSegs, joinSep]
  | cons c rest ih =>
    intro st
    simp only [specSegs]
    by_cases h : splitsAt sep st c = true
    · simp only [h, if_true]
      have hc : c = sep := (of_decide_eq_true h).1
      cases hr : specSegs sep (scanStep st c) rest with
      | nil => exact absurd hr (specSegs_ne_nil _ _ _)
      | cons s0 ss =>
        have : joinSep sep ([] :: s0 :: ss) = sep :: joinSep sep (s0 :: ss) := by
          simp [joinSep]
        rw [this, ← hr, ih, hc]
    · simp only [h]
      cases hr : specSegs sep (scanStep st c) rest with
      | nil => exact absurd hr (specSegs_ne_nil _ _ _)
      | cons s0 ss =>
        simp only [Bool.false_eq_true, if_false, List.headD_cons, List.tail_cons]
        rw [joinSep_cons_head, ← hr, ih]

theorem head?_dropWhile_not (p : Char → Bool) :
    ∀ (l : List Char) {c : Char}, (l.dropWhile p).head? = some c → p c = false := by
  intro l
  induction l with
  | nil => intro c h; simp at h
  | cons a t ih =>
    intro c h
    by_cases hpa : p a = true
    · rw [List.dropWhile_cons, if_pos hpa] at h
      exact ih h
    · rw [List.dropWhile_cons, if_neg hpa] at h
      simp only [List.head?_cons, Option.some.injEq] at h
      subst h
      exact Bool.eq_false_iff.2 hpa

theorem dropWhile_eq_self_of_head? (p : Char → Bool) {l : List Char}
    (h : ∀ c, l.head? = some c → p c = false) : l.dropWhile p = l := by
  cases l with
  | nil => simp
  | cons a t =>
    have := h a rfl
    simp [List.dropWhile_cons, this]

theorem getLast?_dropWhile (p : Char → Bool) {l : List Char}
    (h : l.dropWhile p ≠ []) : (l.dropWhile p).getLast? = l.getLast? := by
  conv_rhs => rw [← List.takeWhile_append_dropWhile p l]
  rw [List.getLast?_append]
  cases hd : List.getLast? (l.dropWhile p) with
  | none => rw [List.getLast?_eq_none_iff] at hd; exact absurd hd h
  | some x => simp

theorem stripOn_idem (p : Char → Bool) (l : List Char) :
    stripOn p (stripOn p l) = stripOn p l := by
  set s := stripOn p l with hs
  have hrev : s.reverse = (l.dropWhile p).reverse.dropWhile p := by
    rw [hs]; unfold stripOn; rw [List.reverse_reverse]
  have h2 : ∀ c, s.reverse.head? = some c → p c = false := by
    intro c hc
    rw [hrev] at hc
    exact head?_dropWhile_not p _ hc
  have h1 : ∀ c, s.head? = some c → p c = false := by
    intro c hc
    have hne : (l.dropWhile p).reverse.dropWhile p ≠ [] := by
      intro hnil
      rw [hs] at hc
      unfold stripOn at hc
      rw [hnil] at hc
      simp at hc
    have hhead : s.head? = ((l.dropWhile p).reverse.dropWhile p).getLast? := by
      rw [hs]; unfold stripOn; rw [List.head?_reverse]
    rw [hhead, getLast?_dropWhile p hne, List.getLast?_reverse] at hc
    exact head?_dropWhile_not p l hc
  show stripOn p s = s
  unfold stripOn
  rw [dropWhile_eq_self_of_head? p h1, dropWhile_eq_self_of_head? p h2,
    List.reverse_reverse]

theorem mem_dropWhile_iff {p : Char → Bool} {c : Char} (hp : p c = false)
    {l : List Char} : c ∈ l.dropWhile p ↔ c ∈ l := by
  constructor
  · exact fun h => (List.dropWhile_sublist p).subset h
  · intro h
    conv at h => rw [← List.takeWhile_append_dropWhile p l]
    rcases List.mem_append.1 h with h1 | h1
    · exact absurd (List.mem_takeWhile_imp h1) (by simp [hp])
    · exact h1

theorem mem_stripOn_iff {p : Char → Bool} {c : Char} (hp : p c = false)
    {l : List Char} : c ∈ stripOn p l ↔ c ∈ l := by
  unfold stripOn
  rw [List.mem_reverse, mem_dropWhile_iff hp, List.mem_reverse, mem_dropWhile_iff hp]

/-! ## Claims C1, C3, C10: the Depth-Aware Splitter -/

/-- C1: for every input string and separator character, the splitter of the
source returns exactly the ordered sequence of trimmed, non-empty substrings
obtained by splitting at the separator occurrences that lie at zero bracket,
parenthesis and brace depth and outside a quoted literal (same-character
quote matching, no escapes); separators at depth or in quotes stay in the
accumulated element, whitespace-only input yields the empty sequence, and a
depth that never returns to zero leaves the remainder as one final element. -/
theorem claim_C1 (content : String) (sep : Char) :
    split_respecting_nesting content sep = depth_aware_split_spec content sep :=
  split_respecting_nesting_eq_spec content sep

/-- C10: a closing delimiter outside quotes always decrements its depth
counter (so an unmatched one drives it negative), and a separator occurrence
scanned while any counter is non-zero or inside quotes is not a split
point. -/
theorem claim_C10 (content : String) (sep : Char) (i j : Nat) (kd : BKind)
    (hcl : content.data.getD j ' ' = closerOf kd)
    (hq : (stateAt content.data j).inQuotes = false)
    (hsep : content.data.getD i ' ' = sep)
    (hnt : atTopLevelB (stateAt content.data i) = false) :
    depthOf kd (stateAt content.data (j + 1)) = depthOf kd (stateAt content.data j) - 1 ∧
      i ∉ splitIndices content sep := by
  constructor
  · have hgd : content.data.getD j ' ' = (content.data[j]?).getD ' ' :=
      List.getD_eq_getElem?_getD _ _ _
    rw [hgd] at hcl
    cases hj : content.data[j]? with
    | none =>
      rw [hj] at hcl
      simp only [Option.getD_none] at hcl
      cases kd <;> simp [closerOf] at hcl
    | some c =>
      rw [hj] at hcl
      simp only [Option.getD_some] at hcl
      subst hcl
      rw [stateAt_succ, hj]
      cases kd <;> simp [scanStep, closerOf, depthOf, hq]
  · intro hi
    have h := (mem_splitIndices.1 hi).2
    have htop : atTopLevelB (stateAt content.data i) = true := (of_decide_eq_true h).2.1
    rw [htop] at hnt
    simp at hnt

/-- Witness for C10 at the concrete input `"a], b"` split on `','`: the
unmatched `]` drives the bracket counter to `-1` and the later separator is
not a split point, so the whole string is returned as one element. -/
theorem claim_C10_witness :
    "a], b".data.getD 1 ' ' = closerOf .brk ∧
    (stateAt "a], b".data 1).inQuotes = false ∧
    "a], b".data.getD 2 ' ' = ',' ∧
    atTopLevelB (stateAt "a], b".data 2) = false ∧
    (depthOf .brk (stateAt "a], b".data 2) = depthOf .brk (stateAt "a], b".data 1) - 1 ∧
      2 ∉ splitIndices "a], b" ',') ∧
    split_respecting_nesting "a], b" ',' = ["a], b"] ∧
    (stateAt "a], b".data 2).bracketDepth = -1 :=
  ⟨by decide, by decide, by decide, by decide,
    claim_C10 "a], b" ',' 2 1 .brk (by decide) (by decide) (by decide) (by decide),
    by decide, by decide⟩

/-- C3 (amended): when no depth counter ever goes negative, no split point
lies strictly inside a matched delimiter pair or strictly inside matching
quotes; and (unconditionally) the raw segments rejoin with the separator to
exactly the original content, the returned elements being the trimmed
segments with whitespace-only segments dropped. -/
theorem claim_C3 (content : String) (sep : Char)
    (hnn : ∀ (kd : BKind) (i : Nat), i ≤ content.data.length →
      0 ≤ depthOf kd (stateAt content.data i)) :
    (∀ i ∈ splitIndices content sep, ∀ (kd : BKind) (j k : Nat),
        matchedPair content.data kd j k → ¬(j < i ∧ i < k)) ∧
    (∀ i ∈ splitIndices content sep, ∀ (j k : Nat),
        matchedQuote content.data j k → ¬(j < i ∧ i < k)) ∧
    joinSep sep (specSegs sep {} content.data) = content.data ∧
    split_respecting_nesting content sep = trimNonEmpty (specSegs sep {} content.data) := by
  refine ⟨?_, ?_, joinSep_specSegs sep content.data {}, ?_⟩
  · intro i hi kd j k hmp hcontra
    obtain ⟨hji, hik⟩ := hcontra
    obtain ⟨hjk, hklen, _, _, _, hball, _⟩ := hmp
    obtain ⟨hilen, hsp⟩ := mem_splitIndices.1 hi
    have htop : atTopLevelB (stateAt content.data i) = true := (of_decide_eq_true hsp).2.1
    have hzero : depthOf kd (stateAt content.data i) = 0 := depthOf_eq_zero_of_top htop
    have hmem : i ∈ List.range' (j + 1) (k - j) := by
      rw [List.mem_range'_1]
      omega
    have hlt := hball i hmem
    have hj0 : 0 ≤ depthOf kd (stateAt content.data j) := hnn kd j (by omega)
    omega
  · intro i hi j k hmq hcontra
    obtain ⟨hji, hik⟩ := hcontra
    obtain ⟨hjk, hklen, _, _, _, hball, _⟩ := hmq
    obtain ⟨hilen, hsp⟩ := mem_splitIndices.1 hi
    have htop : atTopLevelB (stateAt content.data i) = true := (of_decide_eq_true hsp).2.1
    have hqf : (stateAt content.data i).inQuotes = false := inQuotes_false_of_top htop
    have hmem : i ∈ List.range' (j + 1) (k - j) := by
      rw [List.mem_range'_1]
      omega
    have hqt := hball i hmem
    rw [hqf] at hqt
    simp at hqt
  · rw [split_respecting_nesting_eq_spec]
    rfl

/-- Witness for C3 at `"a=[1, 2], b"` split on `','`, an input whose depth
counters never go negative. -/
theorem claim_C3_witness :
    (∀ (kd : BKind) (i : Nat), i ≤ "a=[1, 2], b".data.length →
      0 ≤ depthOf kd (stateAt "a=[1, 2], b".data i)) ∧
    ((∀ i ∈ splitIndices "a=[1, 2], b" ',', ∀ (kd : BKind) (j k : Nat),
        matchedPair "a=[1, 2], b".data kd j k → ¬(j < i ∧ i < k)) ∧
      (∀ i ∈ splitIndices "a=[1, 2], b" ',', ∀ (j k : Nat),
        matchedQuote "a=[1, 2], b".data j k → ¬(j < i ∧ i < k)) ∧
      joinSep ',' (specSegs ',' {} "a=[1, 2], b".data) = "a=[1, 2], b".data ∧
      split_respecting_nesting "a=[1, 2], b" ',' =
        trimNonEmpty (specSegs ',' {} "a=[1, 2], b".data)) ∧
    split_respecting_nesting "a=[1, 2], b" ',' = ["a=[1, 2]", "b"] := by
  have hnn : ∀ (kd : BKind) (i : Nat), i ≤ "a=[1, 2], b".data.length →
      0 ≤ depthOf kd (stateAt "a=[1, 2], b".data i) := by
    intro kd
    cases kd <;> decide
  exact ⟨hnn, claim_C3 "a=[1, 2], b" ',' hnn, by decide⟩

/-- Counterexample for C3 as frozen: on `"]x[a,b]"` (an unmatched closing
bracket first) the separator at index 4 is a split point strictly inside the
matched pair at indices 2 and 6; and on `"a, ,b"` the whitespace-only middle
segment is dropped, so no whitespace padding of the returned elements rejoins
to the original content. -/
theorem claim_C3_cex :
    split_respecting_nesting "]x[a,b]" ',' = ["]x[a", "b]"] ∧
    (4 ∈ splitIndices "]x[a,b]" ',') ∧
    matchedPair "]x[a,b]".data .brk 2 6 ∧ (2 < 4 ∧ 4 < 6) ∧
    ¬ ∃ raws : List (List Char),
        raws.map stripChars = (split_respecting_nesting "a, ,b" ',').map String.data ∧
        joinSep ',' raws = "a, ,b".data := by
  refine ⟨by decide, by decide, by decide, by decide, ?_⟩
  rintro ⟨raws, h1, h2⟩
  have hsp : (split_respecting_nesting "a, ,b" ',').map String.data = [['a'], ['b']] := by
    decide
  rw [hsp] at h1
  cases raws with
  | nil => simp at h1
  | cons r1 t =>
    simp only [List.map_cons] at h1
    obtain ⟨e1, h1'⟩ := List.cons.inj h1
    cases t with
    | nil => simp at h1'
    | cons r2 t2 =>
      simp only [List.map_cons] at h1'
      obtain ⟨e2, h1''⟩ := List.cons.inj h1'
      cases t2 with
      | cons r3 t3 => simp at h1''
      | nil =>
        have hj : joinSep ',' [r1, r2] = r1 ++ ',' :: r2 := by simp [joinSep]
        rw [hj] at h2
        have hc1 : (',' : Char) ∉ r1 := by
          intro hm
          have hmem : (',' : Char) ∈ stripChars r1 := by
            unfold stripChars
            exact (mem_stripOn_iff (by decide)).2 hm
          rw [e1] at hmem
          simp at hmem
        have hc2 : (',' : Char) ∉ r2 := by
          intro hm
          have hmem : (',' : Char) ∈ stripChars r2 := by
            unfold stripChars
            exact (mem_stripOn_iff (by decide)).2 hm
          rw [e2] at hmem
          simp at hmem
        have hcnt := congrArg (List.count ',') h2
        rw [List.count_append] at hcnt
        have hr1 : List.count ',' r1 = 0 := List.count_eq_zero.2 hc1
        have hr2 : List.count ',' r2 = 0 := List.count_eq_zero.2 hc2
        have hfull : List.count ',' "a, ,b".data = 2 := by decide
        rw [hr1, hfull] at hcnt
        simp [List.count_cons_self, hr2] at hcnt

/-! ## The `json` module, modelled

`json_loads` and `json_dumps_indent2` model Python's `json.loads` and
`json.dumps(obj, indent=2)` on the fragment the plan texts use: objects,
arrays, strings (with the standard escapes), integers, booleans and null.
Non-integer numbers are rejected by the model. -/

/-- JSON whitespace. -/
def isJsonWs (c : Char) : Bool :=
  c = ' ' ∨ c = '\t' ∨ c = '\n' ∨ c = '\x0d'

/-- Skip JSON whitespace. -/
def skipWs (l : List Char) : List Char :=
  l.dropWhile isJsonWs

/-- Hexadecimal digit value. -/
def hexVal (c : Char) : Option Nat :=
  if '0' ≤ c ∧ c ≤ '9' then some (c.toNat - '0'.toNat)
  else if 'a' ≤ c ∧ c ≤ 'f' then some (c.toNat - 'a'.toNat + 10)
  else if 'A' ≤ c ∧ c ≤ 'F' then some (c.toNat - 'A'.toNat + 10)
  else none

/-- Scan a JSON string literal after its opening quote; strict mode: raw
control characters are rejected. -/
def jsonStringAux : List Char → List Char → Option (String × List Char)
  | '\x22' :: rest, acc => some (String.mk acc.reverse, rest)
  | '\\' :: e :: rest, acc =>
    match e with
    | '\x22' => jsonStringAux rest ('\x22' :: acc)
    | '\\' => jsonStringAux rest ('\\' :: acc)
    | '/' => jsonStringAux rest ('/' :: acc)
    | 'b' => jsonStringAux rest ('\x08' :: acc)
    | 'f' => jsonStringAux rest ('\x0c' :: acc)
    | 'n' => jsonStringAux rest ('\n' :: acc)
    | 'r' => jsonStringAux rest ('\x0d' :: acc)
    | 't' => jsonStringAux rest ('\t' :: acc)
    | 'u' =>
      match rest with
      | h1 :: h2 :: h3 :: h4 :: rest2 =>
        match hexVal h1, hexVal h2, hexVal h3, hexVal h4 with
        | some v1, some v2, some v3, some v4 =>
          let n := ((v1 * 16 + v2) * 16 + v3) * 16 + v4
          if h : n.isValidChar then jsonStringAux rest2 (Char.ofNatAux n h :: acc)
          else none
        | _, _, _, _ => none
      | _ => none
    | _ => none
  | c :: rest, acc =>
    if c.toNat < 32 then none else jsonStringAux rest (c :: acc)
  | [], _ => none

/-- Digits to a natural number. -/
def digitsToNat (l : List Char) : Nat :=
  l.foldl (fun n c => n * 10 + (c.toNat - '0'.toNat)) 0

/-- Parse a JSON number; the model accepts only integers (a following `.`,
`e` or `E` is rejected). -/
def jsonNumber (l : List Char) : Option (Int × List Char) :=
  let (neg, l2) :=
    match l with
    | '-' :: t => (true, t)
    | _ => (false, l)
  let digits := l2.takeWhile Char.isDigit
  let rest := l2.dropWhile Char.isDigit
  if digits = [] then none
  else if digits.length > 1 ∧ digits.headD '0' = '0' then none
  else
    match rest with
    | '.' :: _ => none
    | 'e' :: _ => none
    | 'E' :: _ => none
    | _ =>
      let n : Int := Int.ofNat (digitsToNat digits)
      some (if neg then -n else n, rest)

mutual

/-- Parse one JSON value; returns the value and the unconsumed remainder. -/
def jsonVal : Nat → List Char → Except String (PyVal × List Char)
  | 0, _ => .error "Nesting too deep"
  | fuel + 1, l =>
    let l := skipWs l
    match l with
    | [] => .error "Expecting value"
    | '\x22' :: rest =>
      match jsonStringAux rest [] with
      | some (s, r) => .ok (.vstr s, r)
      | none => .error "Invalid string"
    | 't' :: 'r' :: 'u' :: 'e' :: rest => .ok (.vbool true, rest)
    | 'f' :: 'a' :: 'l' :: 's' :: 'e' :: rest => .ok (.vbool false, rest)
    | 'n' :: 'u' :: 'l' :: 'l' :: rest => .ok (.vnull, rest)
    | '[' :: rest =>
      match skipWs rest with
      | ']' :: r2 => .ok (.vlist [], r2)
      | _ => do
        let (v, r) ← jsonVal fuel rest
        jsonArrItems fuel [v] r
    | '\x7b' :: rest =>
      match skipWs rest with
      | '\x7d' :: r2 => .ok (.vdict [], r2)
      | _ => jsonObjItems fuel [] rest
    | _ =>
      match jsonNumber l with
      | some (n, rest) => .ok (.vint n, rest)
      | none => .error "Expecting value"

/-- Parse the continuation of a JSON array after one element. -/
def jsonArrItems : Nat → List PyVal → List Char → Except String (PyVal × List Char)
  | 0, _, _ => .error "Nesting too deep"
  | fuel + 1, acc, l =>
    match skipWs l with
    | ']' :: r => .ok (.vlist acc.reverse, r)
    | ',' :: r => do
      let (v, r2) ← jsonVal fuel r
      jsonArrItems fuel (v :: acc) r2
    | _ => .error "Expecting comma"

/-- Parse the members of a JSON object (before each `"key": value`). -/
def jsonObjItems : Nat → List (String × PyVal) → List Char → Except String (PyVal × List Char)
  | 0, _, _ => .error "Nesting too deep"
  | fuel + 1, acc, l =>
    match skipWs l with
    | '\x22' :: rest =>
      match jsonStringAux rest [] with
      | none => .error "Invalid string"
      | some (key, r) =>
        match skipWs r with
        | ':' :: r2 => do
          let (v, r3) ← jsonVal fuel r2
          match skipWs r3 with
          | '\x7d' :: r4 =>
            .ok (.vdict (insertAssign acc key v), r4)
          | ',' :: r4 => jsonObjItems fuel (insertAssign acc key v) r4
          | _ => .error "Expecting comma"
        | _ => .error "Expecting colon"
    | _ => .error "Expecting property name"

end

/-- Python `json.loads`, on the modelled fragment. -/
def json_loads (s : String) : Except String PyVal :=
  match jsonVal (2 * s.length + 4) s.data with
  | .ok (v, rest) => if skipWs rest = [] then .ok v else .error "Extra data"
  | .error e => .error e

/-- Hexadecimal digit character. -/
def hexDigit (n : Nat) : Char :=
  if n < 10 then Char.ofNat ('0'.toNat + n) else Char.ofNat ('a'.toNat + (n - 10))

/-- The `\uXXXX` escape for a code unit below `0x10000`. -/
def uEscape (n : Nat) : List Char :=
  ['\\', 'u', hexDigit (n / 4096 % 16), hexDigit (n / 256 % 16),
    hexDigit (n / 16 % 16), hexDigit (n % 16)]

/-- Escape one character as Python `json.dumps` does with `ensure_ascii`. -/
def escapeChar (c : Char) : List Char :=
  if c = '\x22' then ['\\', '\x22']
  else if c = '\\' then ['\\', '\\']
  else if c = '\x08' then ['\\', 'b']
  else if c = '\x0c' then ['\\', 'f']
  else if c = '\n' then ['\\', 'n']
  else if c = '\x0d' then ['\\', 'r']
  else if c = '\t' then ['\\', 't']
  else if c.toNat < 32 ∨ c.toNat > 126 then
    if c.toNat < 65536 then uEscape c.toNat
    else
      uEscape (55296 + (c.toNat - 65536) / 1024) ++ uEscape (56320 + (c.toNat - 65536) % 1024)
  else [c]

/-- Serialize a string as a JSON string literal. -/
def dumpString (s : String) : String :=
  String.mk ('\x22' :: (s.data.flatMap escapeChar) ++ ['\x22'])

/-- Indentation: `n` spaces. -/
def indentSpaces (n : Nat) : String :=
  String.mk (List.replicate n ' ')

mutual

/-- Python `json.dumps(v, indent=2)`, at indentation level `ind`. -/
def dumpVal (ind : Nat) : PyVal → String
  | .vstr s => dumpString s
  | .vint i => toString i
  | .vbool b => if b then "true" else "false"
  | .vnull => "null"
  | .vlist [] => "[]"
  | .vlist (x :: xs) =>
    "[\n" ++ String.intercalate ",\n" (dumpItems (ind + 2) (x :: xs)) ++
      "\n" ++ indentSpaces ind ++ "]"
  | .vdict [] => "\x7b\x7d"
  | .vdict (e :: es) =>
    "\x7b\n" ++ String.intercalate ",\n" (dumpEntries (ind + 2) (e :: es)) ++
      "\n" ++ indentSpaces ind ++ "\x7d"

/-- Serialized array items, each prefixed by its indentation. -/
def dumpItems (ind : Nat) : List PyVal → List String
  | [] => []
  | x :: xs => (indentSpaces ind ++ dumpVal ind x) :: dumpItems ind xs

/-- Serialized object entries, each prefixed by its indentation. -/
def dumpEntries (ind : Nat) : List (String × PyVal) → List String
  | [] => []
  | (k, v) :: es =>
    (indentSpaces ind ++ dumpString k ++ ": " ++ dumpVal ind v) :: dumpEntries ind es

end

/-- Python `json.dumps(v, indent=2)`. -/
def json_dumps_indent2 (v : PyVal) : String :=
  dumpVal 0 v

/-! ## The parameter parsers from the source -/

/-- Python `s.find(c)` (first index, `-1` when absent), counting from `i`. -/
def charFindAux (c : Char) : List Char → Nat → Int
  | [], _ => -1
  | a :: rest, i => if a = c then Int.ofNat i else charFindAux c rest (i + 1)

/-- `parse_arrow_structure` from the source. -/
def parse_arrow_structure (content : String) : PyVal :=
  let arrow_pos := arrowPosAux content.data 0
  if arrow_pos ≤ 0 then .vstr content
  else
    let key := String.mk (stripChars (content.data.take arrow_pos.toNat))
    let value_part := String.mk (stripChars (content.data.drop (arrow_pos.toNat + 2)))
    if value_part.data.head? = some '[' ∧ value_part.data.getLast? = some ']' then
      let array_content := String.mk (stripChars ((value_part.data.drop 1).dropLast))
      if array_content.data ≠ [] then
        .vdict [(key ++ "->", .vlist ((split_respecting_nesting array_content ',').map
          (fun f => .vstr (String.mk (stripChars f.data)))))]
      else .vdict [(key ++ "->", .vlist [])]
    else .vdict [(key ++ "->", .vstr value_part)]

/-- The special handling of one parameter value inside `parse_parameters`:
a brace-delimited value is tried as JSON; on decode failure (and for every
other value) the classifier is used. -/
def pp_entry_value (classify : String → PyVal) (value : String) : PyVal :=
  if value.data.head? = some '\x7b' ∧ value.data.getLast? = some '\x7d' then
    match json_loads value with
    | .ok j => j
    | .error _ => classify value
  else classify value

/-- The per-part loop of `parse_parameters`. -/
def pp_loop (entry : String → PyVal) : List String → List (String × PyVal) →
    List (String × PyVal)
  | [], params => params
  | part0 :: rest, params =>
    let part := String.mk (stripChars part0.data)
    if part.data = [] then pp_loop entry rest params
    else
      let eq_pos := find_first_unescaped_char part '='
      if eq_pos > 0 then
        let key := String.mk (stripChars (part.data.take eq_pos.toNat))
        let value := String.mk (stripChars (part.data.drop (eq_pos.toNat + 1)))
        pp_loop entry rest (insertAssign params key (entry value))
      else pp_loop entry rest (insertAssign params part (.vbool true))

mutual

/-- `parse_parameters` from the source, with a recursion-depth fuel. -/
def parse_parameters_f : Nat → String → List (String × PyVal)
  | 0, _ => []
  | fuel + 1, params_str =>
    if stripChars params_str.data = [] then []
    else
      pp_loop (pp_entry_value (fun v => parse_parameter_value_f fuel v))
        (split_respecting_nesting params_str ',') []

/-- `parse_parameter_value` from the source, with a recursion-depth fuel. -/
def parse_parameter_value_f : Nat → String → PyVal
  | 0, s => .vstr s
  | fuel + 1, value_str0 =>
    let value_str := String.mk (stripChars value_str0.data)
    if value_str.data.head? = some '[' ∧ value_str.data.getLast? = some ']' then
      let inner_content := String.mk (stripChars ((value_str.data.drop 1).dropLast))
      if inner_content.data = [] then .vlist []
      else if inner_content.data = ['\x7b', '\x7d'] then .vlist [.vdict []]
      else if containsArrow inner_content.data then
        if ¬ inner_content.data.head? = some '[' then parse_arrow_structure inner_content
        else
          .vlist ((split_respecting_nesting inner_content ',').map (fun item0 =>
            let item := String.mk (stripChars item0.data)
            if item.data.head? = some '[' ∧ item.data.getLast? = some ']' ∧
                containsArrow item.data then
              parse_arrow_structure (String.mk (stripChars ((item.data.drop 1).dropLast)))
            else parse_parameter_value_f fuel item))
      else if ¬ ((split_respecting_nesting inner_content ',').any (fun item =>
          (stripChars item.data).head? = some '[' ∧
            (stripChars item.data).getLast? = some ']')) then
        .vstr value_str
      else
        .vlist ((split_respecting_nesting inner_content ',').map (fun item =>
          parse_parameter_value_f fuel (String.mk (stripChars item.data))))
    else if value_str.data.contains '(' ∧ value_str.data.getLast? = some ')' ∧
        ((value_str.data.drop ((charFindAux '(' value_str.data 0).toNat + 1)).dropLast).contains '=' then
      let paren_pos := (charFindAux '(' value_str.data 0).toNat
      let func_name := String.mk (stripChars (value_str.data.take paren_pos))
      let params_str := String.mk (stripChars ((value_str.data.drop (paren_pos + 1)).dropLast))
      if params_str.data ≠ [] then
        .vdict [(func_name, .vdict (parse_parameters_f fuel params_str))]
      else .vdict [(func_name, .vdict [])]
    else .vstr value_str

end

/-- `parse_parameters` (fuel instantiated; the recursion consumes at least
two characters per level, so the length bound is ample). -/
def parse_parameters (s : String) : List (String × PyVal) :=
  parse_parameters_f (s.length + 1) s

/-- `parse_parameter_value` (fuel instantiated). -/
def parse_parameter_value (s : String) : PyVal :=
  parse_parameter_value_f (s.length + 1) s

/-- The anchored pattern match of one plan line, Python
`re.match(r"(\w+)\((.*)\)$", line)`: a non-empty word-character prefix, an
opening parenthesis, and a closing parenthesis as the final character. -/
def matchOperatorLine (l : List Char) : Option (String × String) :=
  let nm := l.takeWhile isWordChar
  if nm = [] then none
  else
    match l.dropWhile isWordChar with
    | '(' :: rest =>
      match rest.getLast? with
      | some ')' => some (String.mk nm, String.mk rest.dropLast)
      | _ => none
    | _ => none

/-- The per-line loop of `parse_plan_tree`. -/
def ppt_lines : List (List Char) → List (String × PyVal) → List (String × PyVal)
  | [], result => result
  | line0 :: rest, result =>
    let line := stripChars line0
    if line = [] then ppt_lines rest result
    else
      match matchOperatorLine line with
      | some (nm, params_str) =>
        ppt_lines rest (insertAssign result nm (.vdict (parse_parameters params_str)))
      | none => ppt_lines rest result

/-- `parse_plan_tree` from the source. -/
def parse_plan_tree (plan_str : String) : List (String × PyVal) :=
  if plan_str.data = [] ∨ stripChars plan_str.data = [] then []
  else ppt_lines (splitChar '\n' (stripChars plan_str.data)) []

/-! ## The legacy request parser and the envelope orchestrators -/

/-- The lookahead `(?=\w+=)`: a non-empty word-character run followed by `=`. -/
def legacyLookahead (l : List Char) : Bool :=
  l.takeWhile isWordChar ≠ [] ∧ (l.dropWhile isWordChar).head? = some '='

/-- Python `re.split(r", (?=\w+=)", s)`: split exactly at a comma followed by
a space whose continuation passes the lookahead; the lookahead is not
consumed. -/
def legacySplit : List Char → List (List Char)
  | [] => [[]]
  | [c] => [[c]]
  | c :: d :: rest =>
    if c = ',' ∧ d = ' ' ∧ legacyLookahead rest then [] :: legacySplit rest
    else
      let r := legacySplit (d :: rest)
      (c :: r.headD []) :: r.tail

/-- Python `s.rfind(c)` as an option (index of the last occurrence). -/
def lastIdxOf (c : Char) (l : List Char) : Option Nat :=
  match l.reverse.findIdx? (fun x => x = c) with
  | some r => some (l.length - 1 - r)
  | none => none

/-- Python `re.match(r"(\w+)\((.*)\)", request_str)`: a non-empty
word-character prefix, `(`, and a greedy group ending at the last `)` of the
string (any suffix after it is ignored by the match). -/
def matchRequest (l : List Char) : Option (String × String) :=
  let nm := l.takeWhile isWordChar
  if nm = [] then none
  else
    match l.dropWhile isWordChar with
    | '(' :: rest =>
      match lastIdxOf ')' rest with
      | some k => some (String.mk nm, String.mk (rest.take k))
      | none => none
    | _ => none

/-- Python `part.split("=", 1)` unpacked into two variables: a missing `=`
raises `ValueError`. -/
def splitFirstEq (part : List Char) : Except PyErr (List Char × List Char) :=
  if part.contains '=' then
    .ok (part.takeWhile (fun x => ¬ x = '='), (part.dropWhile (fun x => ¬ x = '=')).tail)
  else .error .valueError

/-- The per-part loop building the legacy request object. -/
def prq_loop : List (List Char) → List (String × PyVal) →
    Except PyErr (List (String × PyVal))
  | [], obj => .ok obj
  | part :: rest, obj => do
    let (key, val) ← splitFirstEq part
    let val_obj ←
      if String.mk key = "sourceBuilder" then
        match json_loads (String.mk val) with
        | .ok j => Except.ok j
        | .error e => Except.error (.jsonError e)
      else Except.ok (.vstr (String.mk val))
    prq_loop rest (insertAssign obj (String.mk key) val_obj)

/-- The request-transformation block of `explain_legacy`: `none` when the
pattern does not match (the request is then left unchanged). -/
def parse_request (request_str : String) : Except PyErr (Option PyVal) :=
  match matchRequest request_str.data with
  | none => .ok none
  | some (request_type, inner) => do
    let obj ← prq_loop (legacySplit inner.data) []
    .ok (some (.vdict [(request_type, .vdict obj)]))

/-- The `fields` transformation of `explain_legacy`:
`[f.strip() for f in fields_str.strip("[]").split(",") if f.strip()]`. -/
def parse_fields (fields_str : String) : List String :=
  (splitChar ',' (stripOn (fun c => c = '[' ∨ c = ']') fields_str.data)).filterMap
    (fun f => if stripChars f = [] then none else some (String.mk (stripChars f)))

/-- A step of a path into a decoded JSON document. -/
inductive PathElem where
  | key : String → PathElem
  | idx : Nat → PathElem
deriving DecidableEq

/-- Chained Python item access `data[p1][p2]...`. -/
def getPath : PyVal → List PathElem → Except PyErr PyVal
  | v, [] => .ok v
  | v, .key s :: ps =>
    match v with
    | .vdict d =>
      match lookupA d s with
      | some w => getPath w ps
      | none => .error (.keyError s)
    | _ => .error .typeError
  | v, .idx n :: ps =>
    match v with
    | .vlist xs =>
      match xs[n]? with
      | some w => getPath w ps
      | none => .error .indexError
    | _ => .error .typeError

/-- Python item assignment `data[p1][p2]... = w` along a path: intermediate
steps must exist, the final key is created or updated in place. -/
def setPath : PyVal → List PathElem → PyVal → Except PyErr PyVal
  | _, [], w => .ok w
  | v, [.key s], w =>
    match v with
    | .vdict d => .ok (.vdict (insertAssign d s w))
    | _ => .error .typeError
  | v, .key s :: ps, w =>
    match v with
    | .vdict d =>
      match lookupA d s with
      | some u => do
        let u' ← setPath u ps w
        Except.ok (.vdict (insertAssign d s u'))
      | none => .error (.keyError s)
    | _ => .error .typeError
  | v, [.idx n], w =>
    match v with
    | .vlist xs =>
      if n < xs.length then .ok (.vlist (xs.set n w)) else .error .indexError
    | _ => .error .typeError
  | v, .idx n :: ps, w =>
    match v with
    | .vlist xs =>
      match xs[n]? with
      | some u => do
        let u' ← setPath u ps w
        Except.ok (.vlist (xs.set n u'))
      | none => .error .indexError
    | _ => .error .typeError

/-- Python attribute access expecting a string (a non-string raises). -/
def asStr : PyVal → Except PyErr String
  | .vstr s => .ok s
  | _ => .error .typeError

/-- Path of the legacy `fields` plan-text field. -/
def fieldsPath : List PathElem :=
  [.key "root", .key "description", .key "fields"]

/-- Path of the legacy `request` plan-text field. -/
def requestPath : List PathElem :=
  [.key "root", .key "children", .idx 0, .key "description", .key "request"]

/-- `ExplainResults.explain_legacy` on the decoded envelope. -/
def explain_legacy_data (data : PyVal) : Except PyErr PyVal := do
  let fields_str ← asStr (← getPath data fieldsPath)
  let data2 ← setPath data fieldsPath (.vlist ((parse_fields fields_str).map .vstr))
  let request_str ← asStr (← getPath data2 requestPath)
  match ← parse_request request_str with
  | some req => setPath data2 requestPath req
  | none => pure data2

/-- `ExplainResults.explain_legacy`. -/
def explain_legacy (result : String) : Except PyErr String := do
  let data ←
    match json_loads result with
    | .ok d => Except.ok d
    | .error e => Except.error (.jsonError e)
  let data' ← explain_legacy_data data
  pure (json_dumps_indent2 data')

/-- Path of the optimizer `logical` plan-text field. -/
def logicalPath : List PathElem :=
  [.key "calcite", .key "logical"]

/-- Path of the optimizer `physical` plan-text field. -/
def physicalPath : List PathElem :=
  [.key "calcite", .key "physical"]

/-- `ExplainResults.explain_calcite` on the decoded envelope. -/
def explain_calcite_data (data : PyVal) : Except PyErr PyVal := do
  let logical_str ← asStr (← getPath data logicalPath)
  let logical_structured := PyVal.vdict (parse_plan_tree logical_str)
  let physical_str ← asStr (← getPath data physicalPath)
  let physical_structured := PyVal.vdict (parse_plan_tree physical_str)
  let data2 ← setPath data logicalPath logical_structured
  setPath data2 physicalPath physical_structured

/-- `ExplainResults.explain_calcite`. -/
def explain_calcite (result : String) : Except PyErr String := do
  let data ←
    match json_loads result with
    | .ok d => Except.ok d
    | .error e => Except.error (.jsonError e)
  let data' ← explain_calcite_data data
  pure (json_dumps_indent2 data')

/-! ## Association-list lemmas for the insertion-ordered dict model -/

theorem string_mk_data (s : String) : String.mk s.data = s := rfl

theorem mem_split_strip (s : String) (sep : Char) (part : String)
    (h : part ∈ split_respecting_nesting s sep) :
    stripChars part.data = part.data ∧ part.data ≠ [] := by
  rw [split_respecting_nesting_eq_spec] at h
  unfold depth_aware_split_spec trimNonEmpty at h
  rcases List.mem_filterMap.1 h with ⟨seg, _, hseg⟩
  by_cases hn : stripChars seg = []
  · rw [if_pos hn] at hseg
    exact absurd hseg (by simp)
  · rw [if_neg hn] at hseg
    have hp : part = String.mk (stripChars seg) := (Option.some.inj hseg).symm
    subst hp
    refine ⟨?_, hn⟩
    show stripChars (stripChars seg) = stripChars seg
    unfold stripChars
    exact stripOn_idem isPySpace seg

theorem lookupA_cons (e : String × PyVal) (t : List (String × PyVal)) (k : String) :
    lookupA (e :: t) k = if e.1 = k then some e.2 else lookupA t k := by
  unfold lookupA
  rw [List.find?_cons]
  by_cases h : e.1 = k <;> simp [h]

theorem insertAssign_cons_ne {e : String × PyVal} {k : String}
    (h : ¬ e.1 = k) (t : List (String × PyVal)) (v : PyVal) :
    insertAssign (e :: t) k v = e :: insertAssign t k v := by
  unfold insertAssign
  simp only [List.any_cons, decide_eq_false_iff_not.2 h, Bool.false_or]
  by_cases ht : t.any (fun x => x.1 = k) = true
  · simp [ht, h]
  · simp [ht]

theorem insertAssign_cons_self {e : String × PyVal} {k : String}
    (h : e.1 = k) (t : List (String × PyVal)) (v : PyVal) :
    insertAssign (e :: t) k v =
      (k, v) :: t.map (fun x => if x.1 = k then (k, v) else x) := by
  unfold insertAssign
  simp [List.any_cons, h]

theorem lookupA_insertAssign_self (d : List (String × PyVal)) (k : String) (v : PyVal) :
    lookupA (insertAssign d k v) k = some v := by
  induction d with
  | nil => simp [insertAssign, lookupA]
  | cons e t ih =>
    by_cases h : e.1 = k
    · rw [insertAssign_cons_self h, lookupA_cons]
      simp
    · rw [insertAssign_cons_ne h, lookupA_cons, if_neg h]
      exact ih

theorem lookupA_map_update_ne {k k' : String} (h : ¬ k = k') (t : List (String × PyVal))
    (v : PyVal) :
    lookupA (t.map (fun x => if x.1 = k then (k, v) else x)) k' = lookupA t k' := by
  induction t with
  | nil => simp
  | cons e r ih =>
    simp only [List.map_cons]
    by_cases he : e.1 = k
    · rw [if_pos he, lookupA_cons, lookupA_cons, if_neg h, if_neg (by rw [he]; exact h)]
      exact ih
    · rw [if_neg he, lookupA_cons, lookupA_cons]
      by_cases he' : e.1 = k'
      · simp [he']
      · rw [if_neg he', if_neg he']
        exact ih

theorem lookupA_insertAssign_ne {k k' : String} (h : ¬ k = k')
    (d : List (String × PyVal)) (v : PyVal) :
    lookupA (insertAssign d k v) k' = lookupA d k' := by
  induction d with
  | nil =>
    simp [insertAssign, lookupA, List.find?_cons, h]
  | cons e t ih =>
    by_cases he : e.1 = k
    · rw [insertAssign_cons_self he, lookupA_cons, lookupA_cons, if_neg h,
        if_neg (by rw [he]; exact h)]
      exact lookupA_map_update_ne h t v
    · rw [insertAssign_cons_ne he, lookupA_cons, lookupA_cons]
      by_cases he' : e.1 = k'
      · simp [he']
      · rw [if_neg he', if_neg he']
        exact ih

theorem keys_insertAssign (d : List (String × PyVal)) (k : String) (v : PyVal) :
    (insertAssign d k v).map Prod.fst =
      if k ∈ d.map Prod.fst then d.map Prod.fst else d.map Prod.fst ++ [k] := by
  by_cases h : d.any (fun e => e.1 = k) = true
  · have hm : k ∈ d.map Prod.fst := by
      rcases List.any_eq_true.1 h with ⟨x, hx, hxk⟩
      exact List.mem_map.2 ⟨x, hx, of_decide_eq_true hxk⟩
    rw [if_pos hm]
    unfold insertAssign
    rw [if_pos h, List.map_map]
    apply List.map_congr_left
    intro a _
    by_cases ha : a.1 = k
    · simp [ha]
    · simp [ha]
  · have hm : k ∉ d.map Prod.fst := by
      intro hk
      rcases List.mem_map.1 hk with ⟨x, hx, hxk⟩
      exact h (List.any_eq_true.2 ⟨x, hx, decide_eq_true hxk⟩)
    rw [if_neg hm]
    unfold insertAssign
    rw [if_neg h]
    simp

/-- First-occurrence deduplication, skipping names already seen. -/
def dedupAvoid (seen : List String) : List String → List String
  | [] => []
  | k :: r => if k ∈ seen then dedupAvoid seen r else k :: dedupAvoid (seen ++ [k]) r

theorem keys_foldIns (es : List (String × PyVal)) :
    ∀ d : List (String × PyVal),
      ((es.foldl (fun d e => insertAssign d e.1 e.2) d).map Prod.fst) =
        d.map Prod.fst ++ dedupAvoid (d.map Prod.fst) (es.map Prod.fst) := by
  induction es with
  | nil => intro d; simp [dedupAvoid]
  | cons e r ih =>
    intro d
    simp only [List.foldl_cons, List.map_cons]
    rw [ih, keys_insertAssign]
    by_cases hm : e.1 ∈ d.map Prod.fst
    · rw [if_pos hm]
      simp [dedupAvoid, hm]
    · rw [if_neg hm]
      simp only [dedupAvoid, hm, if_false, ite_false]
      rw [List.append_assoc]
      rfl

theorem lookupA_foldIns (es : List (String × PyVal)) :
    ∀ (d : List (String × PyVal)) (nm : String),
      lookupA (es.foldl (fun d e => insertAssign d e.1 e.2) d) nm =
        match (es.filter (fun e => e.1 = nm)).getLast? with
        | some x => some x.2
        | none => lookupA d nm := by
  induction es with
  | nil => intro d nm; simp
  | cons e r ih =>
    intro d nm
    simp only [List.foldl_cons, List.filter_cons]
    rw [ih]
    by_cases he : e.1 = nm
    · rw [if_pos (show decide (e.1 = nm) = true by simp [he])]
      have hgl : (e :: r.filter (fun x => decide (x.1 = nm))).getLast? =
          ((r.filter (fun x => decide (x.1 = nm))).getLast?).or (some e) := by
        have hsing : e :: r.filter (fun x => decide (x.1 = nm)) =
            [e] ++ r.filter (fun x => decide (x.1 = nm)) := by simp
        rw [hsing, List.getLast?_append]
        simp
      rw [hgl]
      cases hl : (r.filter (fun x => decide (x.1 = nm))).getLast? with
      | some x => simp
      | none =>
        simp only [Option.none_or]
        subst he
        exact lookupA_insertAssign_self d e.1 e.2
    · rw [if_neg (show ¬ decide (e.1 = nm) = true by simp [he])]
      cases hl : (r.filter (fun x => decide (x.1 = nm))).getLast? with
      | some x => simp
      | none => exact lookupA_insertAssign_ne he d e.2

/-! ## Claim C6: the Plan-Tree Assembler -/

/-- Specification wording: the operator lines of a plan stage that match the
`Name(Params)` shape, in source order (non-matching lines contribute
nothing). -/
def planMatchedOps (s : String) : List (String × String) :=
  ((splitChar '\n' (stripChars s.data)).map stripChars).filterMap matchOperatorLine

theorem ppt_lines_eq (lines : List (List Char)) :
    ∀ d, ppt_lines lines d =
      ((lines.map stripChars).filterMap matchOperatorLine).foldl
        (fun d e => insertAssign d e.1 (PyVal.vdict (parse_parameters e.2))) d := by
  induction lines with
  | nil => intro d; rfl
  | cons line0 rest ih =>
    intro d
    simp only [ppt_lines, List.map_cons, List.filterMap_cons]
    by_cases hline : stripChars line0 = []
    · rw [if_pos hline, hline]
      have hm : matchOperatorLine [] = none := rfl
      rw [hm]
      exact ih d
    · rw [if_neg hline]
      cases hm : matchOperatorLine (stripChars line0) with
      | some e =>
        obtain ⟨nm, ps⟩ := e
        simp only [List.foldl_cons]
        exact ih _
      | none =>
        exact ih d

/-- C6: the plan tree is assembled exactly from the lines matching the
`Name(Params)` shape (others silently skipped), its keys appear in the order
of first appearance of each operator name, and the entry stored under a name
comes from the last matching line bearing that name. -/
theorem claim_C6 (s : String) :
    parse_plan_tree s =
      (planMatchedOps s).foldl
        (fun d e => insertAssign d e.1 (PyVal.vdict (parse_parameters e.2))) [] ∧
    (parse_plan_tree s).map Prod.fst = dedupAvoid [] ((planMatchedOps s).map Prod.fst) ∧
    ∀ nm, lookupA (parse_plan_tree s) nm =
      ((planMatchedOps s).filter (fun e => e.1 = nm)).getLast?.map
        (fun e => PyVal.vdict (parse_parameters e.2)) := by
  have h1 : parse_plan_tree s =
      (planMatchedOps s).foldl
        (fun d e => insertAssign d e.1 (PyVal.vdict (parse_parameters e.2))) [] := by
    unfold parse_plan_tree planMatchedOps
    by_cases hg : s.data = [] ∨ stripChars s.data = []
    · rw [if_pos hg]
      rcases hg with hg | hg <;> rw [hg] <;> rfl
    · rw [if_neg hg]
      exact ppt_lines_eq _ []
  have hfold : (planMatchedOps s).foldl
      (fun d e => insertAssign d e.1 (PyVal.vdict (parse_parameters e.2))) [] =
      ((planMatchedOps s).map
        (fun e => (e.1, PyVal.vdict (parse_parameters e.2)))).foldl
        (fun d e => insertAssign d e.1 e.2) [] := by
    rw [List.foldl_map]
  refine ⟨h1, ?_, ?_⟩
  · rw [h1, hfold, keys_foldIns]
    simp only [List.map_nil, List.nil_append, List.map_map]
    rfl
  · intro nm
    rw [h1, hfold, lookupA_foldIns]
    rw [List.filter_map]
    have hpred : ((fun e : String × PyVal => decide (e.1 = nm)) ∘
        (fun e : String × String => (e.1, PyVal.vdict (parse_parameters e.2)))) =
        (fun e : String × String => decide (e.1 = nm)) := rfl
    rw [hpred, List.getLast?_map]
    cases hl : ((planMatchedOps s).filter (fun e => decide (e.1 = nm))).getLast? with
    | some x => simp
    | none => simp [lookupA]

/-! ## Claim C7: the Parameter-List Parser -/

/-- Specification wording for one top-level part of a parameter list: when
the first unescaped `=` sits at a positive index, split there into trimmed
key and value and classify the value; otherwise the whole part becomes a
boolean flag. -/
def parse_parameters_entry_spec (entry : String → PyVal) (part : String) :
    String × PyVal :=
  let eq_pos := find_first_unescaped_char part '='
  if eq_pos > 0 then
    (String.mk (stripChars (part.data.take eq_pos.toNat)),
      entry (String.mk (stripChars (part.data.drop (eq_pos.toNat + 1)))))
  else (part, .vbool true)

/-- Specification wording for the Parameter-List Parser: map the entry rule
over the depth-aware top-level split and collect the entries as an
insertion-ordered mapping. -/
def parse_parameters_spec (entry : String → PyVal) (s : String) :
    List (String × PyVal) :=
  ((split_respecting_nesting s ',').map (parse_parameters_entry_spec entry)).foldl
    (fun d e => insertAssign d e.1 e.2) []

theorem pp_loop_eq (entry : String → PyVal) :
    ∀ parts : List String,
      (∀ part ∈ parts, stripChars part.data = part.data ∧ part.data ≠ []) →
      ∀ d, pp_loop entry parts d =
        (parts.map (parse_parameters_entry_spec entry)).foldl
          (fun d e => insertAssign d e.1 e.2) d := by
  intro parts
  induction parts with
  | nil => intro _ d; rfl
  | cons part rest ih =>
    intro h d
    obtain ⟨hstrip, hne⟩ := h part (List.mem_cons_self _ _)
    simp only [pp_loop, List.map_cons, List.foldl_cons]
    rw [hstrip, string_mk_data, if_neg hne]
    unfold parse_parameters_entry_spec
    by_cases he : find_first_unescaped_char part '=' > 0
    · rw [if_pos he, if_pos he]
      exact ih (fun p hp => h p (List.mem_cons_of_mem _ hp)) _
    · rw [if_neg he, if_neg he]
      exact ih (fun p hp => h p (List.mem_cons_of_mem _ hp)) _

/-- C7 (amended): a parameter list is the depth-aware top-level split of the
input at `,`, each part mapped to a boolean flag when its first unescaped
`=` is absent or at index 0, and otherwise split at that `=` into trimmed
key and classified value, entries collected in source order. -/
theorem claim_C7 (n : Nat) (s : String) :
    parse_parameters_f (n + 1) s =
      parse_parameters_spec (pp_entry_value (fun v => parse_parameter_value_f n v)) s := by
  unfold parse_parameters_f parse_parameters_spec
  by_cases hg : stripChars s.data = []
  · rw [if_pos hg]
    have hsplit : split_respecting_nesting s ',' = [] := by
      unfold split_respecting_nesting
      rw [if_pos hg]
    rw [hsplit]
    rfl
  · rw [if_neg hg]
    exact pp_loop_eq _ _ (fun part hp => mem_split_strip s ',' part hp) []

/-- Counterexample for C7 as frozen: in `"=x"` an unescaped `=` is found (at
index 0), yet the part is mapped to the boolean flag `{"=x": true}` rather
than being split into key `""` and value `"x"`. -/
theorem claim_C7_cex :
    find_first_unescaped_char "=x" '=' = 0 ∧
    parse_parameters "=x" = [("=x", PyVal.vbool true)] ∧
    parse_parameters "=x" ≠ [("", PyVal.vstr "x")] :=
  ⟨by decide, by decide, by decide⟩

/-! ## Claims C4, C5: the Parameter-Value Classifier -/

/-- `l.contains a` agrees with membership. -/
theorem contains_eq_mem (l : List Char) (a : Char) : l.contains a = decide (a ∈ l) :=
  List.elem_eq_mem a l

theorem list_any_congr {α : Type} {p q : α → Bool} :
    ∀ {l : List α}, (∀ x ∈ l, p x = q x) → l.any p = l.any q := by
  intro l
  induction l with
  | nil => intro _; rfl
  | cons a t ih =>
    intro h
    simp only [List.any_cons]
    rw [h a (List.mem_cons_self _ _), ih (fun x hx => h x (List.mem_cons_of_mem _ hx))]

/-- Whether a parsed value is an array. -/
def isVList : PyVal → Bool
  | .vlist _ => true
  | _ => false

/-- Specification wording for rule 1 of the Parameter-Value Classifier
(amended): on a bracket-wrapped token, empty inner content gives the empty
array, `{}` gives a one-element array holding an empty mapping, inner
content containing `->` is delegated to the Arrow Parser (directly when it
does not start with `[`, else element-wise with bracket-wrapped arrow
elements unwrapped), an array none of whose top-level elements is
bracket-wrapped stays the raw token string, and otherwise the top-level
elements are classified recursively and collected as an array. -/
def classify_array_spec (classify : String → PyVal) (s : String) : PyVal :=
  let inner := String.mk (stripChars ((s.data.drop 1).dropLast))
  if inner.data = [] then .vlist []
  else if inner.data = ['\x7b', '\x7d'] then .vlist [.vdict []]
  else if containsArrow inner.data then
    if ¬ inner.data.head? = some '[' then parse_arrow_structure inner
    else
      .vlist ((split_respecting_nesting inner ',').map (fun item =>
        if item.data.head? = some '[' ∧ item.data.getLast? = some ']' ∧
            containsArrow item.data then
          parse_arrow_structure (String.mk (stripChars ((item.data.drop 1).dropLast)))
        else classify item))
  else if ¬ ((split_respecting_nesting inner ',').any (fun item =>
      item.data.head? = some '[' ∧ item.data.getLast? = some ']')) then
    .vstr s
  else
    .vlist ((split_respecting_nesting inner ',').map classify)

/-- C4 (amended): on a trimmed bracket-wrapped token the classifier follows
the five array rules of `classify_array_spec`, the recursive calls running
at the next fuel level. -/
theorem claim_C4 (n : Nat) (s : String)
    (hs : stripChars s.data = s.data)
    (hw : s.data.head? = some '[' ∧ s.data.getLast? = some ']') :
    parse_parameter_value_f (n + 1) s =
      classify_array_spec (fun v => parse_parameter_value_f n v) s := by
  simp only [parse_parameter_value_f]
  rw [hs, string_mk_data, if_pos hw]
  unfold classify_array_spec
  by_cases h1 : (String.mk (stripChars ((s.data.drop 1).dropLast))).data = []
  · rw [if_pos h1, if_pos h1]
  · rw [if_neg h1, if_neg h1]
    by_cases h2 : (String.mk (stripChars ((s.data.drop 1).dropLast))).data =
        ['\x7b', '\x7d']
    · rw [if_pos h2, if_pos h2]
    · rw [if_neg h2, if_neg h2]
      by_cases h3 : containsArrow
          (String.mk (stripChars ((s.data.drop 1).dropLast))).data = true
      · rw [if_pos h3, if_pos h3]
        by_cases h4 : ¬ (String.mk (stripChars ((s.data.drop 1).dropLast))).data.head? =
            some '['
        · rw [if_pos h4, if_pos h4]
        · rw [if_neg h4, if_neg h4]
          apply congrArg PyVal.vlist
          apply List.map_congr_left
          intro item hitem
          obtain ⟨hstrip, _⟩ :=
            mem_split_strip (String.mk (stripChars ((s.data.drop 1).dropLast))) ','
              item hitem
          simp only [hstrip, string_mk_data]
      · rw [if_neg h3, if_neg h3]
        have hany : (split_respecting_nesting
              (String.mk (stripChars ((s.data.drop 1).dropLast))) ',').any
                (fun item => (stripChars item.data).head? = some '[' ∧
                  (stripChars item.data).getLast? = some ']') =
            (split_respecting_nesting
              (String.mk (stripChars ((s.data.drop 1).dropLast))) ',').any
                (fun item => item.data.head? = some '[' ∧
                  item.data.getLast? = some ']') := by
          apply list_any_congr
          intro item hitem
          obtain ⟨hstrip, _⟩ :=
            mem_split_strip (String.mk (stripChars ((s.data.drop 1).dropLast))) ','
              item hitem
          rw [hstrip]
        rw [hany]
        by_cases h5 : ¬ ((split_respecting_nesting
            (String.mk (stripChars ((s.data.drop 1).dropLast))) ',').any
              (fun item => item.data.head? = some '[' ∧
                item.data.getLast? = some ']')) = true
        · rw [if_pos h5, if_pos h5]
        · rw [if_neg h5, if_neg h5]
          apply congrArg PyVal.vlist
          apply List.map_congr_left
          intro item hitem
          obtain ⟨hstrip, _⟩ :=
            mem_split_strip (String.mk (stripChars ((s.data.drop 1).dropLast))) ','
              item hitem
          rw [hstrip, string_mk_data]

/-- Witness for C4 at the concrete tokens `"[{}]"`, `"[]"` and the
specification's parameter-list example. -/
theorem claim_C4_witness :
    stripChars "[\x7b\x7d]".data = "[\x7b\x7d]".data ∧
    ("[\x7b\x7d]".data.head? = some '[' ∧ "[\x7b\x7d]".data.getLast? = some ']') ∧
    parse_parameter_value_f 1 "[\x7b\x7d]" =
      classify_array_spec (fun v => parse_parameter_value_f 0 v) "[\x7b\x7d]" ∧
    parse_parameter_value "[\x7b\x7d]" = PyVal.vlist [PyVal.vdict []] ∧
    parse_parameter_value "[]" = PyVal.vlist [] ∧
    parse_parameters "group=[\x7b\x7d], sum(aa)=[SUM($0)]" =
      [("group", PyVal.vlist [PyVal.vdict []]), ("sum(aa)", PyVal.vstr "[SUM($0)]")] :=
  ⟨by decide, by decide, claim_C4 0 "[\x7b\x7d]" (by decide) (by decide),
    by decide, by decide, by decide⟩

/-- Counterexample for C4 as frozen: the bracket-wrapped token
`"[PROJECT->[a]]"` has non-empty inner content other than `{}`, yet the
classifier returns a mapping — neither the raw token string nor an array. -/
theorem claim_C4_cex :
    parse_parameter_value "[PROJECT->[a]]" =
      PyVal.vdict [("PROJECT->", PyVal.vlist [PyVal.vstr "a"])] ∧
    isVList (parse_parameter_value "[PROJECT->[a]]") = false ∧
    parse_parameter_value "[PROJECT->[a]]" ≠ PyVal.vstr "[PROJECT->[a]]" :=
  ⟨by decide, by decide, by decide⟩

theorem charFindAux_append (c : Char) :
    ∀ (pre suf : List Char) (i : Nat), c ∉ pre →
      charFindAux c (pre ++ c :: suf) i = Int.ofNat (i + pre.length) := by
  intro pre
  induction pre with
  | nil => intro suf i _; simp [charFindAux]
  | cons a t ih =>
    intro suf i h
    have ha : ¬ a = c := fun he => h (by rw [he]; exact List.mem_cons_self _ _)
    simp only [List.cons_append, charFindAux, ha, if_false, ite_false, List.append_eq]
    rw [ih suf (i + 1) (fun hm => h (List.mem_cons_of_mem _ hm))]
    apply congrArg
    simp only [List.length_cons]
    omega

/-- C5 (amended): a token of shape `name(...)` (with `name` free of `(`) is
treated as a nested call exactly when the parenthesized interior contains
the character `=` anywhere — even nested inside brackets or quotes; only in
that case is the interior parsed as a parameter list and wrapped as
`{name: {...}}`, while an interior without `=` falls through to the scalar
rule. -/
theorem claim_C5 (n : Nat) (s name interior : String)
    (hs : stripChars s.data = s.data)
    (hshape : s.data = name.data ++ '(' :: (interior.data ++ [')']))
    (hname : '(' ∉ name.data) :
    (interior.data.contains '=' = true →
      parse_parameter_value_f (n + 1) s =
        (if (String.mk (stripChars interior.data)).data ≠ [] then
          PyVal.vdict [(String.mk (stripChars name.data),
            PyVal.vdict (parse_parameters_f n (String.mk (stripChars interior.data))))]
        else PyVal.vdict [(String.mk (stripChars name.data), PyVal.vdict [])])) ∧
    (interior.data.contains '=' = false →
      parse_parameter_value_f (n + 1) s = PyVal.vstr s) := by
  have hre : s.data = (name.data ++ ['(']) ++ (interior.data ++ [')']) := by
    rw [hshape, List.append_assoc, List.singleton_append]
  have hlast : s.data.getLast? = some ')' := by
    rw [hshape]
    have hsw : name.data ++ '(' :: (interior.data ++ [')']) =
        (name.data ++ '(' :: interior.data) ++ [')'] := by
      rw [List.append_assoc, List.cons_append]
    rw [hsw, List.getLast?_concat]
  have hnotarr : ¬ (s.data.head? = some '[' ∧ s.data.getLast? = some ']') := by
    intro hc
    rw [hlast] at hc
    simp at hc
  have hfind : charFindAux '(' s.data 0 = Int.ofNat name.data.length := by
    rw [hshape]
    have := charFindAux_append '(' name.data (interior.data ++ [')']) 0 hname
    simpa using this
  have hdroplen : s.data.drop (name.data.length + 1) = interior.data ++ [')'] := by
    rw [hre]
    exact List.drop_left' (by simp)
  have hslice : ((s.data.drop ((charFindAux '(' s.data 0).toNat + 1)).dropLast) =
      interior.data := by
    rw [hfind]
    have htn : (Int.ofNat name.data.length).toNat = name.data.length := rfl
    rw [htn, hdroplen, List.dropLast_concat]
  have htake : s.data.take (charFindAux '(' s.data 0).toNat = name.data := by
    rw [hfind]
    have htn : (Int.ofNat name.data.length).toNat = name.data.length := rfl
    rw [htn, hshape]
    exact List.take_left _ _
  have hcont : s.data.contains '(' = true := by
    rw [contains_eq_mem]
    simp [hshape]
  constructor
  · intro hcontains
    simp only [parse_parameter_value_f]
    rw [hs, string_mk_data, if_neg hnotarr,
      if_pos ⟨hcont, hlast, by rw [hslice]; exact hcontains⟩]
    rw [hslice, htake]
  · intro hcontains
    simp only [parse_parameter_value_f]
    rw [hs, string_mk_data, if_neg hnotarr,
      if_neg (fun hc => by
        have hC := hc.2.2
        rw [hslice, hcontains] at hC
        simp at hC)]

/-- Witness for C5 at the specification's aggregate example `"SUM($0)"`: no
`=` in the interior, so the token stays a scalar string. -/
theorem claim_C5_witness :
    stripChars "SUM($0)".data = "SUM($0)".data ∧
    "SUM($0)".data = "SUM".data ++ '(' :: ("$0".data ++ [')']) ∧
    '(' ∉ "SUM".data ∧
    "$0".data.contains '=' = false ∧
    parse_parameter_value_f 1 "SUM($0)" = PyVal.vstr "SUM($0)" ∧
    parse_parameter_value "SUM($0)" = PyVal.vstr "SUM($0)" :=
  ⟨by decide, by decide, by decide, by decide,
    (claim_C5 0 "SUM($0)" "SUM" "$0" (by decide) (by decide) (by decide)).2 (by decide),
    by decide⟩

/-- Counterexample for C5 as frozen: in `"f([a=b])"` the interior `"[a=b]"`
contains no unescaped `=` (the scanner reports none), yet the token is
treated as a nested call, not returned as a scalar. -/
theorem claim_C5_cex :
    find_first_unescaped_char "[a=b]" '=' = -1 ∧
    parse_parameter_value "f([a=b])" =
      PyVal.vdict [("f", PyVal.vdict [("[a=b]", PyVal.vbool true)])] ∧
    parse_parameter_value "f([a=b])" ≠ PyVal.vstr "f([a=b])" :=
  ⟨by decide, by decide, by decide⟩

/-! ## Claim C2: locality of embedded JSON decode failures -/

/-- Whether an `Except` computation succeeded. -/
def exceptIsOk {ε α : Type} : Except ε α → Bool
  | .ok _ => true
  | .error _ => false

/-- C2 (amended): inside the Parameter-List Parser, a decode failure of a
brace-delimited value is caught locally — the value falls back to the
classifier instead of the failure propagating. -/
theorem claim_C2 (classify : String → PyVal) (value : String) (m : String)
    (h1 : value.data.head? = some '\x7b')
    (h2 : value.data.getLast? = some '\x7d')
    (h3 : json_loads value = Except.error m) :
    pp_entry_value classify value = classify value := by
  unfold pp_entry_value
  rw [if_pos ⟨h1, h2⟩, h3]

/-- Witness for C2 at the undecodable brace-delimited value `"{bad}"`. -/
theorem claim_C2_witness :
    "\x7bbad\x7d".data.head? = some '\x7b' ∧
    "\x7bbad\x7d".data.getLast? = some '\x7d' ∧
    json_loads "\x7bbad\x7d" = Except.error "Expecting property name" ∧
    pp_entry_value PyVal.vstr "\x7bbad\x7d" = PyVal.vstr "\x7bbad\x7d" :=
  ⟨by decide, by decide, rfl,
    claim_C2 PyVal.vstr "\x7bbad\x7d" "Expecting property name" (by decide) (by decide) rfl⟩

/-- A legacy envelope whose embedded `sourceBuilder` value is malformed
JSON while the outer envelope itself is well-formed. -/
def c2Envelope : String :=
  "\x7b\x22root\x22: \x7b\x22description\x22: \x7b\x22fields\x22: \x22[a]\x22\x7d, \x22children\x22: [\x7b\x22description\x22: \x7b\x22request\x22: \x22T(sourceBuilder=\x7bbad\x7d)\x22\x7d\x7d]\x7d\x7d"

/-- Counterexample for C2 as frozen: on `c2Envelope` the outer envelope
decodes successfully, yet `explain_legacy` propagates the decode failure of
the embedded `sourceBuilder` value instead of catching it. -/
theorem claim_C2_cex :
    exceptIsOk (json_loads c2Envelope) = true ∧
    explain_legacy c2Envelope =
      Except.error (PyErr.jsonError "Expecting property name") :=
  ⟨rfl, rfl⟩

/-! ## Claim C8: the Legacy-Request Parser -/

theorem legacySplit_ne_nil : ∀ l : List Char, legacySplit l ≠ [] := by
  intro l
  match l with
  | [] => simp [legacySplit]
  | [c] => simp [legacySplit]
  | c :: d :: rest =>
    simp only [legacySplit]
    split <;> simp

/-- Rejoin the parts of the legacy split with the two-character `", "`
separator. -/
def joinSep2 : List (List Char) → List Char
  | [] => []
  | [s] => s
  | s :: rest => s ++ ',' :: ' ' :: joinSep2 rest

theorem joinSep2_cons_head (c : Char) (s0 : List Char) (ss : List (List Char)) :
    joinSep2 ((c :: s0) :: ss) = c :: joinSep2 (s0 :: ss) := by
  cases ss <;> simp [joinSep2]

theorem joinSep2_legacySplit_aux :
    ∀ (n : Nat) (l : List Char), l.length ≤ n → joinSep2 (legacySplit l) = l := by
  intro n
  induction n with
  | zero =>
    intro l hl
    have hnil : l = [] := List.eq_nil_of_length_eq_zero (Nat.le_zero.1 hl)
    subst hnil
    rfl
  | succ n ih =>
    intro l hl
    rcases l with _ | ⟨c, rest1⟩
    · rfl
    rcases rest1 with _ | ⟨d, rest⟩
    · rfl
    simp only [legacySplit]
    by_cases hc : c = ',' ∧ d = ' ' ∧ legacyLookahead rest = true
    · rw [if_pos hc]
      obtain ⟨hc1, hc2, _⟩ := hc
      subst hc1
      subst hc2
      cases hr : legacySplit rest with
      | nil => exact absurd hr (legacySplit_ne_nil rest)
      | cons s ss =>
        have hjj : joinSep2 ([] :: s :: ss) = ',' :: ' ' :: joinSep2 (s :: ss) := by
          simp [joinSep2]
        have hrest := ih rest (by simp only [List.length_cons] at hl ⊢; omega)
        rw [hr] at hrest
        rw [hjj, hrest]
    · rw [if_neg hc]
      cases hr : legacySplit (d :: rest) with
      | nil => exact absurd hr (legacySplit_ne_nil _)
      | cons s ss =>
        have hrest := ih (d :: rest) (by simp only [List.length_cons] at hl ⊢; omega)
        rw [hr] at hrest
        simp only [List.headD_cons, List.tail_cons]
        rw [joinSep2_cons_head, hrest]

theorem joinSep2_legacySplit (l : List Char) : joinSep2 (legacySplit l) = l :=
  joinSep2_legacySplit_aux l.length l (Nat.le_refl _)

/-- Specification wording for one `key=value` part of the legacy request
descriptor: split at the first plain `=`, JSON-decode the value when the key
is `sourceBuilder`, keep it as a raw string otherwise. -/
def legacy_entry_spec (part : List Char) : Except PyErr (String × PyVal) := do
  let (key, val) ← splitFirstEq part
  let v ←
    if String.mk key = "sourceBuilder" then
      match json_loads (String.mk val) with
      | .ok j => Except.ok j
      | .error e => Except.error (PyErr.jsonError e)
    else Except.ok (PyVal.vstr (String.mk val))
  pure (String.mk key, v)

/-- Specification wording for the legacy request descriptor body: process
every part of the (comma + space + identifier-`=` lookahead) split and
collect the entries in order. -/
def legacy_request_spec (inner : String) : Except PyErr (List (String × PyVal)) := do
  let entries ← (legacySplit inner.data).mapM legacy_entry_spec
  pure (entries.foldl (fun d e => insertAssign d e.1 e.2) [])

theorem except_bind_ok {α β : Type} {e : Type} (a : α) (f : α → Except e β) :
    (Except.ok a >>= f) = f a := rfl

theorem except_bind_error {α β : Type} {e : Type} (err : e) (f : α → Except e β) :
    ((Except.error err : Except e α) >>= f) = Except.error err := rfl

theorem except_map_ok {α β : Type} {e : Type} (f : α → β) (a : α) :
    Except.map f (Except.ok a : Except e α) = Except.ok (f a) := rfl

theorem except_map_error {α β : Type} {e : Type} (f : α → β) (err : e) :
    Except.map f (Except.error err : Except e α) = Except.error err := rfl

theorem except_pure_eq {α : Type} {e : Type} (a : α) :
    (pure a : Except e α) = Except.ok a := rfl

theorem except_fmap_eq {α β : Type} {e : Type} (f : α → β) (x : Except e α) :
    (f <$> x) = Except.map f x := rfl

theorem prq_loop_eq :
    ∀ (parts : List (List Char)) (obj : List (String × PyVal)),
      prq_loop parts obj =
        (parts.mapM legacy_entry_spec).map
          (fun es => es.foldl (fun d e => insertAssign d e.1 e.2) obj) := by
  intro parts
  induction parts with
  | nil => intro obj; rfl
  | cons part rest ih =>
    intro obj
    rw [List.mapM_cons]
    cases hsp : splitFirstEq part with
    | error e =>
      have hlft : prq_loop (part :: rest) obj = Except.error e := by
        simp [prq_loop, hsp, except_bind_error]
      have hrgt : legacy_entry_spec part = Except.error e := by
        simp [legacy_entry_spec, hsp, except_bind_error]
      rw [hlft, hrgt]
      simp [except_bind_error, except_map_error]
    | ok kv =>
      obtain ⟨key, val⟩ := kv
      have hval : ∀ v : PyVal,
          (prq_loop rest (insertAssign obj (String.mk key) v) =
            Except.map (fun es => es.foldl (fun d e => insertAssign d e.1 e.2)
              (insertAssign obj (String.mk key) v)) (rest.mapM legacy_entry_spec)) :=
        fun v => ih (insertAssign obj (String.mk key) v)
      by_cases hsb : String.mk key = "sourceBuilder"
      · cases hj : json_loads (String.mk val) with
        | ok j =>
          have hlft : prq_loop (part :: rest) obj =
              prq_loop rest (insertAssign obj (String.mk key) j) := by
            simp [prq_loop, hsp, except_bind_ok, hsb, hj]
          have hrgt : legacy_entry_spec part = Except.ok (String.mk key, j) := by
            simp [legacy_entry_spec, hsp, except_bind_ok, hsb, hj, except_pure_eq]
          rw [hlft, hrgt, hval j]
          cases hm : rest.mapM legacy_entry_spec with
          | error e2 =>
            simp [hm, except_fmap_eq, except_map_error, except_bind_ok,
              except_bind_error, except_pure_eq]
          | ok es =>
            simp [hm, except_fmap_eq, except_map_ok, except_bind_ok, except_pure_eq,
              List.foldl_cons]
        | error e =>
          have hlft : prq_loop (part :: rest) obj = Except.error (PyErr.jsonError e) := by
            simp [prq_loop, hsp, except_bind_ok, hsb, hj, except_bind_error]
          have hrgt : legacy_entry_spec part = Except.error (PyErr.jsonError e) := by
            simp [legacy_entry_spec, hsp, except_bind_ok, hsb, hj, except_bind_error]
          rw [hlft, hrgt, except_bind_error, except_map_error]
      · have hlft : prq_loop (part :: rest) obj =
            prq_loop rest (insertAssign obj (String.mk key) (PyVal.vstr (String.mk val))) := by
          simp [prq_loop, hsp, except_bind_ok, hsb]
        have hrgt : legacy_entry_spec part =
            Except.ok (String.mk key, PyVal.vstr (String.mk val)) := by
          simp [legacy_entry_spec, hsp, except_bind_ok, hsb, except_pure_eq]
        rw [hlft, hrgt, hval (PyVal.vstr (String.mk val))]
        cases hm : rest.mapM legacy_entry_spec with
        | error e2 =>
          simp [hm, except_fmap_eq, except_map_error, except_bind_ok,
            except_bind_error, except_pure_eq]
        | ok es =>
          simp [hm, except_fmap_eq, except_map_ok, except_bind_ok, except_pure_eq,
            List.foldl_cons]

/-- Specification wording for the sibling `fields` string: strip the
surrounding bracket characters, split flat at every comma, trim each piece
and keep the non-empty ones. -/
def legacy_fields_spec (fs : String) : List String :=
  ((splitChar ',' (stripOn (fun c => c = '[' ∨ c = ']') fs.data)).map
    (fun f => String.mk (stripChars f))).filter (fun f => f.data ≠ [])

theorem filterMap_strip_eq (l : List (List Char)) :
    l.filterMap (fun f => if stripChars f = [] then none
        else some (String.mk (stripChars f))) =
      (l.map (fun f => String.mk (stripChars f))).filter (fun f => f.data ≠ []) := by
  induction l with
  | nil => rfl
  | cons a t ih =>
    simp only [List.filterMap_cons, List.map_cons, List.filter_cons]
    by_cases h : stripChars a = []
    · simp [h, ih]
    · simp [h, ih]

/-- C8 (amended): a legacy request descriptor matching `Type(...)` is split
at a comma followed by a space and an identifier-`=` lookahead (the parts
rejoin with `", "` to the original interior), each part split at its first
plain `=` with `sourceBuilder` values JSON-decoded and others kept raw, the
result wrapped as `{Type: {...}}`; the sibling `fields` string is parsed by
stripping surrounding brackets and flat comma-splitting. -/
theorem claim_C8 (rs ty inner fs : String)
    (hm : matchRequest rs.data = some (ty, inner)) :
    parse_request rs = (legacy_request_spec inner).map
      (fun obj => some (PyVal.vdict [(ty, PyVal.vdict obj)])) ∧
    joinSep2 (legacySplit inner.data) = inner.data ∧
    parse_fields fs = legacy_fields_spec fs := by
  refine ⟨?_, joinSep2_legacySplit inner.data, ?_⟩
  · unfold parse_request
    rw [hm]
    dsimp only
    unfold legacy_request_spec
    rw [prq_loop_eq]
    cases hmm : (legacySplit inner.data).mapM legacy_entry_spec with
    | error e =>
      simp [hmm, except_map_error, except_bind_error]
    | ok es =>
      simp [hmm, except_map_ok, except_bind_ok, except_pure_eq]
  · unfold parse_fields legacy_fields_spec
    exact filterMap_strip_eq _

/-- Witness for C8 at a request descriptor with an embedded `sourceBuilder`
JSON value. -/
theorem claim_C8_witness :
    matchRequest "T(indexName=employees, sourceBuilder=\x7b\x22from\x22:0\x7d)".data =
      some ("T", "indexName=employees, sourceBuilder=\x7b\x22from\x22:0\x7d") ∧
    (parse_request "T(indexName=employees, sourceBuilder=\x7b\x22from\x22:0\x7d)" =
        (legacy_request_spec "indexName=employees, sourceBuilder=\x7b\x22from\x22:0\x7d").map
          (fun obj => some (PyVal.vdict [("T", PyVal.vdict obj)])) ∧
      joinSep2 (legacySplit
          "indexName=employees, sourceBuilder=\x7b\x22from\x22:0\x7d".data) =
        "indexName=employees, sourceBuilder=\x7b\x22from\x22:0\x7d".data ∧
      parse_fields "[a, b]" = legacy_fields_spec "[a, b]") ∧
    parse_request "T(indexName=employees, sourceBuilder=\x7b\x22from\x22:0\x7d)" =
      Except.ok (some (PyVal.vdict [("T", PyVal.vdict
        [("indexName", PyVal.vstr "employees"),
          ("sourceBuilder", PyVal.vdict [("from", PyVal.vint 0)])])])) :=
  ⟨rfl, claim_C8 _ "T" _ "[a, b]" rfl, rfl⟩

/-- Counterexample for C8 as frozen: in `"T(a=1,b=2)"` the comma is
immediately followed by the identifier-`=` lookahead but not by a space, so
the code does not split there, while the frozen claim says it would. -/
theorem claim_C8_cex :
    legacySplit "a=1,b=2".data = ["a=1,b=2".data] ∧
    parse_request "T(a=1,b=2)" =
      Except.ok (some (PyVal.vdict [("T", PyVal.vdict [("a", PyVal.vstr "1,b=2")])])) ∧
    PyVal.vdict [("T", PyVal.vdict [("a", PyVal.vstr "1,b=2")])] ≠
      PyVal.vdict [("T", PyVal.vdict [("a", PyVal.vstr "1"), ("b", PyVal.vstr "2")])] :=
  ⟨rfl, rfl, by decide⟩

/-! ## Claim C9: the orchestrators touch only the designated plan-text fields -/

/-- Prefix test on paths. -/
def pathPre : List PathElem → List PathElem → Bool
  | [], _ => true
  | _ :: _, [] => false
  | a :: r, b :: t => if a = b then pathPre r t else false

theorem getPath_setPath_indep :
    ∀ (q : List PathElem) (d v d' : PyVal), setPath d q v = Except.ok d' →
      ∀ p : List PathElem, pathPre p q = false → pathPre q p = false →
        getPath d' p = getPath d p := by
  intro q
  induction q with
  | nil =>
    intro d v d' hset p hpq hqp
    simp [pathPre] at hqp
  | cons qe qt ih =>
    intro d v d' hset p hpq hqp
    cases p with
    | nil => simp [pathPre] at hpq
    | cons pe pt =>
      cases qe with
      | key ks =>
        cases qt with
        | nil =>
          cases d with
          | vstr a => simp [setPath] at hset
          | vint a => simp [setPath] at hset
          | vbool a => simp [setPath] at hset
          | vnull => simp [setPath] at hset
          | vlist xs => simp [setPath] at hset
          | vdict dd =>
            simp only [setPath] at hset
            cases hset
            cases pe with
            | key ps =>
              by_cases hk : ps = ks
              · subst hk
                simp [pathPre] at hqp
              · simp only [getPath]
                rw [lookupA_insertAssign_ne (fun h => hk h.symm)]
            | idx m => simp [getPath]
        | cons q2 qts =>
          cases d with
          | vstr a => simp [setPath] at hset
          | vint a => simp [setPath] at hset
          | vbool a => simp [setPath] at hset
          | vnull => simp [setPath] at hset
          | vlist xs => simp [setPath] at hset
          | vdict dd =>
            simp only [setPath] at hset
            cases hlk : lookupA dd ks with
            | none => rw [hlk] at hset; simp at hset
            | some u =>
              rw [hlk] at hset
              dsimp only at hset
              cases hsu : setPath u (q2 :: qts) v with
              | error e =>
                rw [hsu] at hset
                simp [except_bind_error] at hset
              | ok u' =>
                rw [hsu] at hset
                rw [except_bind_ok] at hset
                cases hset
                cases pe with
                | key ps =>
                  by_cases hk : ps = ks
                  · subst hk
                    simp only [getPath]
                    rw [lookupA_insertAssign_self, hlk]
                    have hpq' : pathPre pt (q2 :: qts) = false := by
                      simp [pathPre] at hpq
                      exact hpq
                    have hqp' : pathPre (q2 :: qts) pt = false := by
                      simp [pathPre] at hqp
                      exact hqp
                    exact ih u v u' hsu pt hpq' hqp'
                  · simp only [getPath]
                    rw [lookupA_insertAssign_ne (fun h => hk h.symm)]
                | idx m => simp [getPath]
      | idx nn =>
        cases qt with
        | nil =>
          cases d with
          | vstr a => simp [setPath] at hset
          | vint a => simp [setPath] at hset
          | vbool a => simp [setPath] at hset
          | vnull => simp [setPath] at hset
          | vdict dd => simp [setPath] at hset
          | vlist xs =>
            simp only [setPath] at hset
            by_cases hlen : nn < xs.length
            · rw [if_pos hlen] at hset
              cases hset
              cases pe with
              | key ps => simp [getPath]
              | idx m =>
                by_cases hm : m = nn
                · subst hm
                  simp [pathPre] at hqp
                · simp only [getPath]
                  rw [List.getElem?_set_ne (fun h => hm h.symm)]
            · rw [if_neg hlen] at hset
              simp at hset
        | cons q2 qts =>
          cases d with
          | vstr a => simp [setPath] at hset
          | vint a => simp [setPath] at hset
          | vbool a => simp [setPath] at hset
          | vnull => simp [setPath] at hset
          | vdict dd => simp [setPath] at hset
          | vlist xs =>
            simp only [setPath] at hset
            cases hx : xs[nn]? with
            | none => rw [hx] at hset; simp at hset
            | some u =>
              rw [hx] at hset
              dsimp only at hset
              cases hsu : setPath u (q2 :: qts) v with
              | error e =>
                rw [hsu] at hset
                simp [except_bind_error] at hset
              | ok u' =>
                rw [hsu] at hset
                rw [except_bind_ok] at hset
                cases hset
                cases pe with
                | key ps => simp [getPath]
                | idx m =>
                  by_cases hm : m = nn
                  · subst hm
                    have hlen : m < xs.length := by
                      by_contra hge
                      rw [List.getElem?_eq_none (Nat.le_of_not_lt hge)] at hx
                      cases hx
                    simp only [getPath]
                    rw [List.getElem?_set_self hlen, hx]
                    have hpq' : pathPre pt (q2 :: qts) = false := by
                      simp [pathPre] at hpq
                      exact hpq
                    have hqp' : pathPre (q2 :: qts) pt = false := by
                      simp [pathPre] at hqp
                      exact hqp
                    exact ih u v u' hsu pt hpq' hqp'
                  · simp only [getPath]
                    rw [List.getElem?_set_ne (fun h => hm h.symm)]

/-- C9: the orchestrators change only the designated plan-text fields; on any
envelope on which the legacy (resp. optimizer) transformation succeeds, any
path that neither extends nor is extended by one of that transformation's
fields reads the same in the output document; and the serialized output is
always the transformed envelope re-encoded with 2-space indentation. -/
theorem claim_C9 (d : PyVal) (p : List PathElem)
    (h1 : pathPre p fieldsPath = false) (h2 : pathPre fieldsPath p = false)
    (h3 : pathPre p requestPath = false) (h4 : pathPre requestPath p = false)
    (h5 : pathPre p logicalPath = false) (h6 : pathPre logicalPath p = false)
    (h7 : pathPre p physicalPath = false) (h8 : pathPre physicalPath p = false) :
    (∀ dl, explain_legacy_data d = Except.ok dl → getPath dl p = getPath d p) ∧
    (∀ dc, explain_calcite_data d = Except.ok dc → getPath dc p = getPath d p) ∧
    ∀ s, json_loads s = Except.ok d →
      explain_legacy s = (explain_legacy_data d).map json_dumps_indent2 ∧
      explain_calcite s = (explain_calcite_data d).map json_dumps_indent2 := by
  refine ⟨fun dl hl => ?_, fun dc hc => ?_, ?_⟩
  · unfold explain_legacy_data at hl
    cases hg1 : getPath d fieldsPath with
    | error e => rw [hg1] at hl; simp [except_bind_error] at hl
    | ok fv =>
      rw [hg1] at hl
      simp only [except_bind_ok] at hl
      cases hs1 : asStr fv with
      | error e => rw [hs1] at hl; simp [except_bind_error] at hl
      | ok fstr =>
        rw [hs1] at hl
        simp only [except_bind_ok] at hl
        cases hset1 : setPath d fieldsPath
            (PyVal.vlist ((parse_fields fstr).map PyVal.vstr)) with
        | error e => rw [hset1] at hl; simp [except_bind_error] at hl
        | ok d2 =>
          rw [hset1] at hl
          simp only [except_bind_ok] at hl
          have f1 : getPath d2 p = getPath d p :=
            getPath_setPath_indep fieldsPath d _ d2 hset1 p h1 h2
          cases hg2 : getPath d2 requestPath with
          | error e => rw [hg2] at hl; simp [except_bind_error] at hl
          | ok rv =>
            rw [hg2] at hl
            simp only [except_bind_ok] at hl
            cases hs2 : asStr rv with
            | error e => rw [hs2] at hl; simp [except_bind_error] at hl
            | ok rstr =>
              rw [hs2] at hl
              simp only [except_bind_ok] at hl
              cases hpr : parse_request rstr with
              | error e => rw [hpr] at hl; simp [except_bind_error] at hl
              | ok ro =>
                rw [hpr] at hl
                simp only [except_bind_ok] at hl
                cases ro with
                | none =>
                  dsimp only at hl
                  simp only [except_pure_eq] at hl
                  cases hl
                  exact f1
                | some req =>
                  dsimp only at hl
                  have f2 : getPath dl p = getPath d2 p :=
                    getPath_setPath_indep requestPath d2 req dl hl p h3 h4
                  rw [f2, f1]
  · unfold explain_calcite_data at hc
    cases hg1 : getPath d logicalPath with
    | error e => rw [hg1] at hc; simp [except_bind_error] at hc
    | ok lv =>
      rw [hg1] at hc
      simp only [except_bind_ok] at hc
      cases hs1 : asStr lv with
      | error e => rw [hs1] at hc; simp [except_bind_error] at hc
      | ok lstr =>
        rw [hs1] at hc
        simp only [except_bind_ok] at hc
        cases hg2 : getPath d physicalPath with
        | error e => rw [hg2] at hc; simp [except_bind_error] at hc
        | ok pv =>
          rw [hg2] at hc
          simp only [except_bind_ok] at hc
          cases hs2 : asStr pv with
          | error e => rw [hs2] at hc; simp [except_bind_error] at hc
          | ok pstr =>
            rw [hs2] at hc
            simp only [except_bind_ok] at hc
            cases hset1 : setPath d logicalPath
                (PyVal.vdict (parse_plan_tree lstr)) with
            | error e => rw [hset1] at hc; simp [except_bind_error] at hc
            | ok d2 =>
              rw [hset1] at hc
              simp only [except_bind_ok] at hc
              have f1 : getPath d2 p = getPath d p :=
                getPath_setPath_indep logicalPath d _ d2 hset1 p h5 h6
              have f2 : getPath dc p = getPath d2 p :=
                getPath_setPath_indep physicalPath d2 _ dc hc p h7 h8
              rw [f2, f1]
  · intro s hjson
    constructor
    · unfold explain_legacy
      rw [hjson]
      dsimp only
      cases hl : explain_legacy_data d with
      | ok dl => simp [hl, except_bind_ok, except_pure_eq, except_map_ok]
      | error e =>
        simp only [except_bind_ok, except_fmap_eq, hl, except_bind_error,
          except_map_error]
    · unfold explain_calcite
      rw [hjson]
      dsimp only
      cases hc : explain_calcite_data d with
      | ok dc => simp [hc, except_bind_ok, except_pure_eq, except_map_ok]
      | error e =>
        simp only [except_bind_ok, except_fmap_eq, hc, except_bind_error,
          except_map_error]

/-- A concrete legacy-only envelope: a `root` section and an unrelated
`status` field, no `calcite` section. -/
def c9LegacyEnv : PyVal :=
  PyVal.vdict [("root", PyVal.vdict
      [("description", PyVal.vdict [("fields", PyVal.vstr "[a]")]),
        ("children", PyVal.vlist [PyVal.vdict
          [("description", PyVal.vdict [("request", PyVal.vstr "T(x=1)")])]])]),
    ("status", PyVal.vint 200)]

/-- `c9LegacyEnv` after the legacy transformation. -/
def c9LegacyOut : PyVal :=
  PyVal.vdict [("root", PyVal.vdict
      [("description", PyVal.vdict [("fields", PyVal.vlist [PyVal.vstr "a"])]),
        ("children", PyVal.vlist [PyVal.vdict
          [("description", PyVal.vdict [("request",
            PyVal.vdict [("T", PyVal.vdict [("x", PyVal.vstr "1")])])])]])]),
    ("status", PyVal.vint 200)]

/-- A concrete optimizer-only envelope: a `calcite` section and an unrelated
`status` field, no `root` section. -/
def c9CalciteEnv : PyVal :=
  PyVal.vdict [("calcite", PyVal.vdict [("logical", PyVal.vstr "A(x=1)"),
      ("physical", PyVal.vstr "")]),
    ("status", PyVal.vint 200)]

/-- `c9CalciteEnv` after the optimizer transformation. -/
def c9CalciteOut : PyVal :=
  PyVal.vdict [("calcite", PyVal.vdict
      [("logical", PyVal.vdict [("A", PyVal.vdict [("x", PyVal.vstr "1")])]),
        ("physical", PyVal.vdict [])]),
    ("status", PyVal.vint 200)]

/-- Witness for C9 on a legacy-only envelope and an optimizer-only envelope,
both at the untouched path `["status"]`: each transformation succeeds on its
own shape (and fails on the other), and the path reads the same afterwards. -/
theorem claim_C9_witness :
    (explain_legacy_data c9LegacyEnv = Except.ok c9LegacyOut ∧
      exceptIsOk (explain_calcite_data c9LegacyEnv) = false ∧
      getPath c9LegacyOut [PathElem.key "status"] =
        getPath c9LegacyEnv [PathElem.key "status"]) ∧
    (explain_calcite_data c9CalciteEnv = Except.ok c9CalciteOut ∧
      exceptIsOk (explain_legacy_data c9CalciteEnv) = false ∧
      getPath c9CalciteOut [PathElem.key "status"] =
        getPath c9CalciteEnv [PathElem.key "status"]) ∧
    getPath c9LegacyEnv [PathElem.key "status"] = Except.ok (PyVal.vint 200) ∧
    getPath c9CalciteEnv [PathElem.key "status"] = Except.ok (PyVal.vint 200) :=
  ⟨⟨rfl, rfl,
      (claim_C9 c9LegacyEnv [PathElem.key "status"]
        (by decide) (by decide) (by decide) (by decide)
        (by decide) (by decide) (by decide) (by decide)).1 c9LegacyOut rfl⟩,
    ⟨rfl, rfl,
      (claim_C9 c9CalciteEnv [PathElem.key "status"]
        (by decide) (by decide) (by decide) (by decide)
        (by decide) (by decide) (by decide) (by decide)).2.1 c9CalciteOut rfl⟩,
    rfl, rfl⟩
